import Mathlib

/-
Verification development for the Senotype Editor data-access layer
(app/models/senlib.py, app/models/senlib_mysql.py).

The Python code is shallowly embedded: dicts become structures or
association lists, Python None becomes Option.none (or an explicit null
scalar where a datum can be either a string or None), raised exceptions
become Option.none / Except.error results, and Python strings are Lean
Strings whose character lists are manipulated directly so that every
definition evaluates by kernel reduction.
-/

namespace Senlib

/-! ### Python string helpers

Python string primitives used by senlib.py, defined over the character
list of a Lean String so that they compute. -/

/-- Characters of s before the first occurrence of the separator sep;
the whole of s when sep does not occur.  This is the semantics of
Python s.split(sep)[0] for a non-empty sep. -/
def beforeSep (sep : List Char) : List Char → List Char
  | [] => []
  | c :: rest => if sep.isPrefixOf (c :: rest) then [] else c :: beforeSep sep rest

/-- Python s.split(sep)[0] for a string separator (used for " ("). -/
def pysplitFirst (s : String) (sep : String) : String :=
  ⟨beforeSep sep.data s.data⟩

/-- Python s.split(c) for a single-character separator. -/
def pysplitChar (sep : Char) : List Char → List (List Char)
  | [] => [[]]
  | c :: rest =>
    if c = sep then [] :: pysplitChar sep rest
    else
      match pysplitChar sep rest with
      | [] => [[c]]
      | x :: xs => (c :: x) :: xs

/-- Python slicing s[0:n] for n >= 0. -/
def pytake (s : String) (n : Nat) : String := ⟨s.data.take n⟩

/-- Python len(s). -/
def pylen (s : String) : Nat := s.data.length

/-- Boolean substring test, the semantics of Python "pat in s". -/
def hasSub (pat : List Char) : List Char → Bool
  | [] => pat.isEmpty
  | c :: rest => pat.isPrefixOf (c :: rest) || hasSub pat rest

/-- Python s.strip(): remove leading and trailing whitespace. -/
def pystrip (s : String) : String :=
  ⟨((s.data.dropWhile Char.isWhitespace).reverse.dropWhile Char.isWhitespace).reverse⟩

/-! ### Association-list maps

Python dicts keyed by strings and the senotype table (one row per
senotypeid, upsert-on-duplicate-key) are modelled as association lists
in insertion order. -/

/-- Python d[k] = v and the SQL INSERT ... ON DUPLICATE KEY UPDATE of
SenLibMySql.writesenotype: replace the value under an existing key,
otherwise append a new entry. -/
def upsert {β : Type} (l : List (String × β)) (k : String) (v : β) :
    List (String × β) :=
  if l.any (fun p => p.1 == k) then
    l.map (fun p => if p.1 == k then (k, v) else p)
  else l ++ [(k, v)]

/-- Python d.get(k): the first value stored under the key. -/
def lookupKey {β : Type} (l : List (String × β)) (k : String) : Option β :=
  (l.find? (fun p => p.1 == k)).map (fun p => p.2)

/-! ### Form data

form.data of the WTForms EditForm is a dict mapping field names to
strings, None, lists of strings, or (for the regmarker FieldList of
FormFields) lists of small dicts with keys marker and action. -/

/-- One entry of the regmarker FieldList: a dict with keys marker and
action, either of which Python may hold as None. -/
structure RegMarker where
  marker : Option String
  action : Option String
deriving Repr, DecidableEq

/-- A scalar Python value inside form data or an assertion object:
a string, None, or a regmarker dict. -/
inductive Scalar where
  | s (v : String)
  | null
  | dict (m : RegMarker)
deriving Repr, DecidableEq

/-- A value stored under one key of form data: a scalar or a list of
scalars (FieldList fields hold lists). -/
inductive FieldValue where
  | scalar (v : Scalar)
  | list (vs : List Scalar)
deriving Repr, DecidableEq

/-- Form data: the form.data dict, keys in insertion order. -/
abbrev FormData := List (String × FieldValue)

/-- Python form_data.get(key): the stored value, or None when the key is
absent.  Both an absent key and a stored None therefore surface as
Scalar.null, exactly as .get does. -/
def fdGet (fd : FormData) (k : String) : FieldValue :=
  match fd.find? (fun p => p.1 == k) with
  | some p => p.2
  | none => .scalar .null

/-! ### Records, assertions and the document store -/

/-- An assertion predicate: a dict with key term and an optional IRI
key (senlib.py builds it with or without the IRI key; a missing key and
a null value are both Option.none here). -/
structure Predicate where
  term : String
  IRI : Option String := none
deriving Repr, DecidableEq

/-- An assertion object.  The shape varies with the assertion category;
a field is none when the corresponding dict key is absent (or null). -/
structure Obj where
  source : Option String := none
  code : Scalar := .null
  term : Option String := none
  type : Option String := none
  value : Option FieldValue := none
  lowerbound : Option FieldValue := none
  upperbound : Option FieldValue := none
  unit : Option FieldValue := none
deriving Repr, DecidableEq

/-- A predicate-object assertion of a senotype submission. -/
structure Assertion where
  predicate : Predicate
  objects : List Obj
deriving Repr, DecidableEq

/-- The provenance object of a senotype: predecessor and successor ids. -/
structure Provenance where
  predecessor : Option String := none
  successor : Option String := none
deriving Repr, DecidableEq

/-- The senotype object of a submission JSON. -/
structure Senotype where
  id : String
  provenance : Provenance
  doi : Option String := none
  name : FieldValue := .scalar .null
  definition : FieldValue := .scalar .null
deriving Repr, DecidableEq

/-- The name object of a submitter. -/
structure SubmitterName where
  first : FieldValue := .scalar .null
  last : FieldValue := .scalar .null
deriving Repr, DecidableEq

/-- The submitter object of a submission JSON. -/
structure Submitter where
  name : SubmitterName
  email : FieldValue := .scalar .null
deriving Repr, DecidableEq

/-- A senotype submission JSON document. -/
structure SubmissionJson where
  senotype : Senotype
  submitter : Submitter
  assertions : List Assertion
deriving Repr, DecidableEq

/-- The senotype table of the senlib database: senotypeid to document,
rows in insertion order (senotypeid is the primary key, so keys of a
reachable store are distinct). -/
abbrev Store := List (String × SubmissionJson)

/-- SenLibMySql.getsenotypejson: the document stored under an id; the
Python function returns the empty dict when no row matches, modelled as
none. -/
def getsenotypejson (st : Store) (id : String) : Option SubmissionJson :=
  lookupKey st id

/-- SenLibMySql.writesenotype: upsert of a document keyed on its id. -/
def writesenotype (st : Store) (senotypeid : String) (json : SubmissionJson) :
    Store :=
  upsert st senotypeid json

/-! ### SenLib.truncateddisplaytext (senlib.py lines 456-468) -/

/-- SenLib.truncateddisplaytext: builds a truncated display string.
A negative trunclength is first replaced by the description length;
an ellipsis is appended exactly when the (adjusted) trunclength is
strictly less than the description length. -/
def truncateddisplaytext (displayid : String) (description : String)
    (trunclength : Int) : String :=
  let t : Int := if trunclength < 0 then (pylen description : Int) else trunclength
  let ell : String := if t < (pylen description : Int) then "..." else ""
  displayid ++ " (" ++ pytake description t.toNat ++ ell ++ ")"

/-! ### Reference tables

Read-only tables loaded at SenLib construction: the field-to-predicate
metadata map (assertion_predicate_object), the assertion valuesets
(senotype_editor_valuesets), and the context assertion map
(context_assertion_code). -/

/-- One row of assertion_predicate_object: maps a form field name to the
predicate term and object source of its assertion. -/
structure FieldMeta where
  object_form_field : String
  predicate_term : Option String := none
  object_source : Option String := none
deriving Repr, DecidableEq

/-- One row of the assertion valuesets table. -/
structure ValuesetRow where
  predicate_term : String
  predicate_IRI : Option String := none
  valueset_code : String
  valueset_term : String
deriving Repr, DecidableEq

/-- One row of context_assertion_code: a context name (such as age) and
its ontology code. -/
structure CtxRow where
  context_name : String
  code : String
deriving Repr, DecidableEq

/-- SenLib.get_field_metadata restricted to a row: the first row of
assertion_predicate_object whose object_form_field matches, if any. -/
def get_field_meta_row (apo : List FieldMeta) (field_name : String) :
    Option FieldMeta :=
  apo.find? (fun r => r.object_form_field == field_name)

/-- SenLib.get_field_metadata for the predicate_term property. -/
def get_field_predicate_term (apo : List FieldMeta) (field_name : String) :
    Option String :=
  (get_field_meta_row apo field_name).bind (fun r => r.predicate_term)

/-- SenLib.get_field_metadata for the object_source property. -/
def get_field_object_source (apo : List FieldMeta) (field_name : String) :
    Option String :=
  (get_field_meta_row apo field_name).bind (fun r => r.object_source)

/-- SenLib.get_iri: the predicate_IRI of the first valueset row whose
predicate_term matches, if any. -/
def get_iri (avs : List ValuesetRow) (predicate_term : String) : Option String :=
  (avs.find? (fun r => r.predicate_term == predicate_term)).bind
    (fun r => r.predicate_IRI)

/-- SenLib.getassertionvalueset: the valueset rows whose predicate_IRI
matches the predicate; when there are none, the rows whose
predicate_term matches. -/
def getassertionvalueset (avs : List ValuesetRow) (predicate : String) :
    List ValuesetRow :=
  let byIri := avs.filter (fun r => r.predicate_IRI == some predicate)
  if byIri.isEmpty then avs.filter (fun r => r.predicate_term == predicate)
  else byIri

/-- SenLib.getsenlibterm: the valueset_term for a code in the valueset of
a predicate, or None when the code is not in the valueset. -/
def getsenlibterm (avs : List ValuesetRow) (predicate : String) (code : String) :
    Option String :=
  ((getassertionvalueset avs predicate).find?
    (fun r => r.valueset_code == code)).map (fun r => r.valueset_term)

/-! ### Dehydration: building assertions from form data
(senlib.py lines 1334-1501) -/

/-- SenLib.buildsimpleassertions: for every form-data key that maps to a
predicate in assertion_predicate_object, one assertion whose objects
wrap the field values as source/code pairs.  Keys without predicate
metadata are skipped; a field whose value list is empty contributes no
assertion.  Since form.data keys are unique, form_data.get(key) inside
the source loop is the value of the entry being visited. -/
def buildsimpleassertions (apo : List FieldMeta) (avs : List ValuesetRow) :
    FormData → List Assertion
  | [] => []
  | (key, v) :: rest =>
    match get_field_predicate_term apo key with
    | none => buildsimpleassertions apo avs rest
    | some pt =>
      let source := get_field_object_source apo key
      let field_values : List Scalar :=
        match v with
        | .list vs => vs
        | .scalar sc => [sc]
      if field_values.isEmpty then buildsimpleassertions apo avs rest
      else
        let objects := field_values.map (fun fv => { source := source, code := fv : Obj })
        { predicate := { term := pt, IRI := get_iri avs pt },
          objects := objects } :: buildsimpleassertions apo avs rest

/-- SenLib.buildcontextassertions: the source iterates over the rows of
context_assertion_code but executes `return assertions` inside the loop
body, so only the first row is ever processed: when the form carries a
value for that row, the result is the single assertion built from it,
otherwise the empty list.  When the table is empty the Python function
falls off the loop and returns None, modelled as none. -/
def buildcontextassertions (ctx : List CtxRow) (fd : FormData) :
    Option (List Assertion) :=
  match ctx with
  | [] => none
  | row :: _ =>
    let value := fdGet fd row.context_name
    if value = .scalar .null then some []
    else
      let lowerbound := fdGet fd (row.context_name ++ "lowerbound")
      let upperbound := fdGet fd (row.context_name ++ "upperbound")
      let unit := fdGet fd (row.context_name ++ "unit")
      let obj : Obj :=
        { term := some row.context_name,
          code := .s row.code,
          value := some value,
          lowerbound := if lowerbound = .scalar .null then none else some lowerbound,
          upperbound := if upperbound = .scalar .null then none else some upperbound,
          unit := if unit = .scalar .null then none else some unit }
      some [{ predicate := { term := "has_context" }, objects := [obj] }]

/-- The object built for one regmarker entry in
SenLib.buildregmarkerassertions: source external, code the entry marker
(None when the dict has no marker value). -/
def regObj (m : RegMarker) : Obj :=
  { source := some "external",
    code := match m.marker with
            | some s => .s s
            | none => .null }

/-- The action buckets and the emission log of the loop of
SenLib.buildregmarkerassertions.  Each iteration adds the object of the
current entry to the bucket of its action and then, for every bucket
that is non-empty at that point, appends one assertion to the result
list (the appends sit inside the for loop in the source). -/
def regFold (ms : List RegMarker) :
    List Obj × List Obj × List Obj × List String :=
  ms.foldl
    (fun acc m =>
      let (up, down, inc, tags) := acc
      let obj := regObj m
      let (up, down, inc) :=
        if m.action == some "up_regulates" then (up ++ [obj], down, inc)
        else if m.action == some "down_regulates" then (up, down ++ [obj], inc)
        else (up, down, inc ++ [obj])
      let tags := tags
        ++ (if up.isEmpty then [] else ["up_regulates"])
        ++ (if down.isEmpty then [] else ["down_regulates"])
        ++ (if inc.isEmpty then [] else ["inconclusively_regulates"])
      (up, down, inc, tags))
    ([], [], [], [])

/-- SenLib.buildregmarkerassertions.  Each assertion appended by the
source holds a reference to the mutable bucket list of its action, so
when the function returns every emitted assertion for an action carries
the final contents of that bucket; the result is the emission log
materialised against the final buckets.  The regmarker form value is a
list of dicts (the field is a FieldList of FormFields); any other shape
raises in Python and is modelled as none. -/
def buildregmarkerassertions (fd : FormData) : Option (List Assertion) :=
  match fdGet fd "regmarker" with
  | .list vs =>
    ((vs.mapM (fun sc => match sc with
       | Scalar.dict m => some m
       | _ => none) : Option (List RegMarker))).map
      (fun ms =>
        if ms.isEmpty then []
        else
          let (up, down, inc, tags) := regFold ms
          tags.map (fun t =>
            { predicate := { term := t },
              objects := if t = "up_regulates" then up
                         else if t = "down_regulates" then down
                         else inc }))
  | _ => none

/-- SenLib.buildassertions: simple assertions, then regulating-marker
assertions, then context assertions.  A None from the context builder
makes the Python len() call raise, modelled as none. -/
def buildassertions (apo : List FieldMeta) (avs : List ValuesetRow)
    (ctx : List CtxRow) (fd : FormData) : Option (List Assertion) :=
  match buildregmarkerassertions fd with
  | none => none
  | some reg =>
    match buildcontextassertions ctx fd with
    | none => none
    | some ctxa => some (buildsimpleassertions apo avs fd ++ reg ++ ctxa)

/-! ### Write orchestration (senlib.py lines 1296-1332 and 1593-1693) -/

/-- SenLib.getprovenanceids: when the target id already exists the
stored provenance is used (the predecessor replaced when a predecessor
id was passed); otherwise the new record starts a chain whose
predecessor is the passed id, with no successor. -/
def getprovenanceids (st : Store) (senotypeid : String)
    (predecessorid : Option String) : Provenance :=
  match getsenotypejson st senotypeid with
  | some sj =>
    { predecessor :=
        match predecessorid with
        | none => sj.senotype.provenance.predecessor
        | some p => some p,
      successor := sj.senotype.provenance.successor }
  | none => { predecessor := predecessorid, successor := none }

/-- The doi block of SenLib.buildsubmissionjson: the doi form value is
parsed back to a bare identifier by dropping any trailing parenthetical
title and prefixing the DOI resolver URL; a None doi stays None, and a
value that is neither a string nor None raises in Python, modelled as
none. -/
def doiFromForm (fd : FormData) : Option (Option String) :=
  match fdGet fd "doi" with
  | .scalar .null => some none
  | .scalar (.s d) => some (some ("https://doi.org/" ++ pysplitFirst d " ("))
  | _ => none

/-- SenLib.buildsubmissionjson: assembles the submission document from
the form data, the provenance computed by getprovenanceids, and the
assertion builders; none models a Python exception in the doi parsing
or the assertion builders. -/
def buildsubmissionjson (apo : List FieldMeta) (avs : List ValuesetRow)
    (ctx : List CtxRow) (st : Store) (fd : FormData) (senotypeid : String)
    (predecessorid : Option String) : Option SubmissionJson :=
  match doiFromForm fd, buildassertions apo avs ctx fd with
  | some doiurl, some asserts =>
    some
      { senotype :=
          { id := senotypeid,
            provenance := getprovenanceids st senotypeid predecessorid,
            doi := doiurl,
            name := fdGet fd "senotypename",
            definition := fdGet fd "senotypedescription" },
        submitter :=
          { name := { first := fdGet fd "submitterfirst",
                      last := fdGet fd "submitterlast" },
            email := fdGet fd "submitteremail" },
        assertions := asserts }
  | _, _ => none

/-- SenLib.updatesuccessor: load the stored document of a senotype, set
its provenance successor, and write it back.  When no document is
stored under the id the Python code indexes into an empty dict and
raises, modelled as none. -/
def updatesuccessor (st : Store) (senotypeid : String) (successorid : String) :
    Option Store :=
  match getsenotypejson st senotypeid with
  | none => none
  | some j =>
    some (writesenotype st senotypeid
      { j with senotype :=
          { j.senotype with provenance :=
              { j.senotype.provenance with successor := some successorid } } })

/-- A submission document with its doi removed, as done by
SenLib.writesubmission for a new version. -/
def clearDoi (j : SubmissionJson) : SubmissionJson :=
  { j with senotype := { j.senotype with doi := none } }

/-- SenLib.writesubmission: build the submission document and upsert it.
With an empty new_version_id this updates the senotype named by the
form senotypeid field (no predecessor).  With a non-empty
new_version_id the document is written under the new id with the form
senotypeid as predecessor, its doi is first removed, and the
predecessor document then has its successor set to the new id.  A
senotypeid form value that is not a string (update flow) and a missing
predecessor document (new-version flow, where Python would raise in
updatesuccessor) are modelled as none. -/
def writesubmission (apo : List FieldMeta) (avs : List ValuesetRow)
    (ctx : List CtxRow) (st : Store) (fd : FormData)
    (new_version_id : String) : Option Store :=
  if new_version_id = "" then
    match fdGet fd "senotypeid" with
    | .scalar (.s sid) =>
      match buildsubmissionjson apo avs ctx st fd sid none with
      | none => none
      | some j => some (writesenotype st sid j)
    | _ => none
  else
    let predecessorid : Option (Option String) :=
      match fdGet fd "senotypeid" with
      | .scalar (.s p) => some (some p)
      | .scalar .null => some none
      | _ => none
    match predecessorid with
    | none => none
    | some pid? =>
      match buildsubmissionjson apo avs ctx st fd new_version_id pid? with
      | none => none
      | some j =>
        let st1 := writesenotype st new_version_id (clearDoi j)
        match pid? with
        | some p => updatesuccessor st1 p new_version_id
        | none => none

/-! ### The version tree builder (SenLib._getsenotypejtree,
senlib.py lines 43-284)

The tree builder reads, for every senotype document, its id and the
predecessor and successor ids of its provenance object; the remaining
document content only feeds display text and is not part of this
model. -/

/-- The provenance data of one senotype document as read by the tree
builder. -/
structure TRecord where
  id : String
  pred : Option String := none
  succ : Option String := none
deriving Repr, DecidableEq

/-- Python truthiness of a provenance pointer: present and non-empty. -/
def truthy : Option String → Bool
  | none => false
  | some s => s != ""

/-- The senotype_by_id dict: documents keyed by id (ids of a well-formed
collection are distinct; theorems assume so). -/
def recById (rs : List TRecord) (i : String) : Option TRecord :=
  rs.find? (fun r => r.id == i)

/-- The keys of the predecessor_map dict: ids of the records whose
provenance names a (truthy) predecessor. -/
def predecessorKeys (rs : List TRecord) : List String :=
  (rs.filter (fun r => truthy r.pred)).map (fun r => r.id)

/-- oldest_ids: ids of senotype_by_id, in order, that are not keys of
predecessor_map. -/
def oldestIds (rs : List TRecord) : List String :=
  (rs.map (fun r => r.id)).filter (fun i => ¬ (predecessorKeys rs).contains i)

/-- The version_map dict. -/
abbrev VMap := List (String × Nat)

/-- Outcomes of the recursive walk assign_versions_from_oldest: the
source recursion has no depth guard, so it is modelled with explicit
fuel; fuelExhausted means no finite recursion depth completes the walk
(in Python, unbounded recursion ending in a RecursionError), and
missingId models the KeyError raised when a successor id has no
document. -/
inductive WalkErr where
  | fuelExhausted
  | missingId
deriving Repr, DecidableEq

/-- assign_versions_from_oldest: record the version of the current id,
then recurse into its (truthy) successor with the next version. -/
def assignVersions (rs : List TRecord) : Nat → VMap → String → Nat →
    Except WalkErr VMap
  | 0, _, _, _ => .error .fuelExhausted
  | fuel + 1, vm, i, version =>
    let vm := upsert vm i version
    match recById rs i with
    | none => .error .missingId
    | some r =>
      if truthy r.succ then
        assignVersions rs fuel vm (r.succ.getD "") (version + 1)
      else .ok vm

/-- The version_map after walking forward from every chain root with
version 1 (the source shares one dict across all walks). -/
def buildVersionMap (rs : List TRecord) (fuel : Nat) : Except WalkErr VMap :=
  (oldestIds rs).foldlM (fun vm i => assignVersions rs fuel vm i 1) []

/-- The child-attachment condition of the tree builder for a target id:
the record has a truthy successor equal to the target. -/
def qSucc (x : String) (r : TRecord) : Bool :=
  truthy r.succ && r.succ.getD "" == x

/-- The ids attached as children of the node of an id: the records, in
table order, whose truthy successor is that id (the source condition
`succ and succ in node_map` holds exactly when the append target node
exists, which it does for every id a node is built for). -/
def childIds (rs : List TRecord) (i : String) : List String :=
  (rs.filter (qSucc i)).map (fun r => r.id)

/-- A node of the senotype jstree, reduced to the data the claims are
about: the id, the version number printed in the node text (none models
the KeyError raised when version_map has no entry for the id), and the
children appended to the node. -/
inductive Node where
  | mk (id : String) (version : Option Nat) (children : List Node)
deriving Repr

/-- The id of a node. -/
def Node.nid : Node → String
  | .mk i _ _ => i

/-- The version of a node. -/
def Node.nversion : Node → Option Nat
  | .mk _ v _ => v

/-- The children of a node. -/
def Node.nchildren : Node → List Node
  | .mk _ _ c => c

/-- The fully linked node of an id once every append of the child-
attachment loop has happened: because node_map holds references, the
serialised node of an id contains the final child nodes recursively.
Fuel bounds the unfolding; any fuel at least the record count is exact
for acyclic data. -/
def buildNode (rs : List TRecord) (vm : VMap) : Nat → String → Node
  | 0, i => .mk i (lookupKey vm i) []
  | fuel + 1, i =>
    .mk i (lookupKey vm i) ((childIds rs i).map (buildNode rs vm fuel))

/-- latest_ids: ids of records without a truthy successor, the chain
heads whose nodes become the roots wrapped in group nodes. -/
def latestIds (rs : List TRecord) : List String :=
  (rs.filter (fun r => ¬ truthy r.succ)).map (fun r => r.id)

/-- The spine of a node: its id followed by the spine of its first
child.  For the linear trees of well-formed chains this is the unique
root-to-leaf path. -/
def spine : Node → List String
  | .mk i _ [] => [i]
  | .mk i _ (c :: _) => i :: spine c

/-- Linearity of a node tree: every node has at most one child. -/
def linearNode : Node → Bool
  | .mk _ _ [] => true
  | .mk _ _ [c] => linearNode c
  | .mk _ _ (_ :: _ :: _) => false

/-! ### External term resolution (senlib.py lines 395-425 and 541-584)

The NCBI citation API and the UBKG marker API are modelled as functions
from the request key to a response.  A raised exception (a transport
failure after the retry adapter gives up, re-raised by
RequestRetry.getresponse) is a distinguished response constructor; the
hydration functions propagate it as none, since nothing in senlib.py
catches it. -/

/-- One entry of the NCBI esummary result object. -/
structure CitEntry where
  title : Option String := none
deriving Repr, DecidableEq

/-- The JSON body returned by the NCBI esummary endpoint: an optional
result object mapping pmid strings to entries. -/
structure CitResult where
  result : Option (List (String × CitEntry)) := none
deriving Repr, DecidableEq

/-- A citation API call outcome: a raised exception or a JSON body. -/
inductive CitResp where
  | exn
  | ok (r : CitResult)
deriving Repr, DecidableEq

/-- SenLib.getcitationobjects: for every object, split the pmid off its
code (no colon raises IndexError, modelled none), call the API (an
exception aborts the whole batch), and fall back to the label unknown
when the response has no result object or no entry for the pmid. -/
def getcitationobjects (api : String → CitResp) : List Obj → Option (List Obj)
  | [] => some []
  | o :: rest =>
    match o.code with
    | .s code =>
      match (pysplitChar ':' code.data).get? 1 with
      | none => none
      | some pmidChars =>
        let pmid : String := ⟨pmidChars⟩
        match api pmid with
        | .exn => none
        | .ok citation =>
          let title :=
            match citation.result with
            | none => "unknown"
            | some entries =>
              match lookupKey entries pmid with
              | none => "unknown"
              | some e => e.title.getD ""
          (getcitationobjects api rest).map
            (fun l => { code := .s code, term := some title } :: l)
    | _ => none

/-- The JSON of one element of a UBKG marker response. -/
structure MarkerData where
  approved_symbol : Option String := none
  recommended_name : Option (List String) := none
deriving Repr, DecidableEq

/-- A marker API call outcome: a raised exception, a body that is falsy
or not a list, or a list whose elements may themselves be falsy
(none). -/
inductive MarkerResp where
  | exn
  | notAList
  | ok (l : List (Option MarkerData))
deriving Repr, DecidableEq

/-- The endpoint-and-id request key SenLib.getmarkerobjects builds for a
cleaned marker code that contains a colon. -/
def markerUrl (code : String) : String :=
  (if hasSub "HGNC".data code.data then "genes" else "proteins")
    ++ "/" ++ (⟨(pysplitChar ':' code.data).getD 1 []⟩ : String)

/-- The label SenLib.getmarkerobjects derives from a marker response:
the code itself when the response is falsy, not a list, or starts with
a falsy element; for HGNC codes the approved symbol (default the code);
otherwise the first recommended name, stripped (default the code). -/
def markerTermOf (code : String) : MarkerResp → String
  | .notAList => code
  | .ok [] => code
  | .ok (none :: _) => code
  | .ok (some d :: _) =>
    if hasSub "HGNC".data code.data then d.approved_symbol.getD code
    else
      match d.recommended_name with
      | some (n :: _) => pystrip n
      | _ => code
  | .exn => code

/-- The guard of SenLib.getmarkerobjects: a stripped code that is empty
or has no colon is not sent to the API. -/
def malformedCode (code : String) : Bool :=
  code = "" || ¬ (code.data.contains ':')

/-- SenLib.getmarkerobjects: for every object, strip its code; an empty
or colon-free code yields a None label; otherwise call the API (an
exception aborts the whole batch) and derive the label with
markerTermOf. -/
def getmarkerobjects (api : String → MarkerResp) : List Obj → Option (List Obj)
  | [] => some []
  | o :: rest =>
    match o.code with
    | .s raw =>
      let code := pystrip raw
      if malformedCode code then
        (getmarkerobjects api rest).map
          (fun l => { code := .s code, term := none } :: l)
      else
        match api (markerUrl code) with
        | .exn => none
        | resp =>
          (getmarkerobjects api rest).map
            (fun l => { code := .s code, term := some (markerTermOf code resp) }
              :: l)
    | _ => none

/-- The pmid substring a citation code yields, for codes that contain a
colon. -/
def pmidOf (code : String) : String :=
  ⟨(pysplitChar ':' code.data).getD 1 []⟩

/-- A marker response that the external service produced but that does
not identify the code: falsy, not a list, or led by a falsy element. -/
def respUnknown : MarkerResp → Bool
  | .notAList => true
  | .ok [] => true
  | .ok (none :: _) => true
  | _ => false

/-- The per-object denotation of citation hydration when no call
raises, used to state that the batch never aborts and processes every
sibling independently. -/
def citHydrated (api : String → CitResp) (o : Obj) : Obj :=
  match o.code with
  | .s code =>
    let pmid : String := pmidOf code
    let title :=
      match api pmid with
      | .exn => ""
      | .ok citation =>
        match citation.result with
        | none => "unknown"
        | some entries =>
          match lookupKey entries pmid with
          | none => "unknown"
          | some e => e.title.getD ""
    { code := .s code, term := some title }
  | _ => o

/-- The per-object denotation of marker hydration when no call raises,
used to state that the batch never aborts and processes every sibling
independently. -/
def markerHydrated (api : String → MarkerResp) (o : Obj) : Obj :=
  match o.code with
  | .s raw =>
    let code := pystrip raw
    if malformedCode code then
      { code := .s code, term := none }
    else
      { code := .s code, term := some (markerTermOf code (api (markerUrl code))) }
  | _ => o

/-! ### The regulating-marker round trip (claim C5)

SenLib.getregmarkerobjects hydrates the regulating-marker assertions of
a stored record, SenLib.fetchfromdb formats them into the regmarker
form field, the Edit form template submits the displayed values back,
and SenLib.buildassertions dehydrates the submission. -/

/-- SenLib.getregmarkerobjects: for every assertion whose predicate term
is a regulating action, resolve its objects and tag them with the
action.  The source assigns the resolved list to its accumulator
instead of extending it, so each matching assertion replaces the
previous result and only the last one survives. -/
def getregmarkerobjects (api : String → MarkerResp) :
    List Assertion → List Obj → Option (List Obj)
  | [], acc => some acc
  | a :: rest, acc =>
    if a.predicate.term == "up_regulates"
        || a.predicate.term == "down_regulates"
        || a.predicate.term == "inconclusively_regulates" then
      match getmarkerobjects api a.objects with
      | none => none
      | some l =>
        getregmarkerobjects api rest
          (l.map (fun o => { o with type := some a.predicate.term }))
    else getregmarkerobjects api rest acc

/-- The regmarker form value built by SenLib.fetchfromdb: one dict per
hydrated object, its marker the truncated display text of code and
label, its action the object type.  A non-string code or label makes
the Python formatting raise, modelled none. -/
def regmarkerFormValue (objs : List Obj) : Option (List Scalar) :=
  objs.mapM (fun o =>
    match o.code, o.term with
    | .s c, some t =>
      some (.dict { marker := some (truncateddisplaytext c t 50),
                    action := o.type })
    | _, _ => none)

/-- Modelled from the spec: the Edit form field-list template and its
update script (repository code outside src) submit each displayed value
back with the parenthetical display label stripped, per the spec: code
is the raw submitted value, stripped of any parenthetical display label
the hydration step added. -/
def stripDisplayLabel (s : String) : String :=
  pysplitFirst s " ("

/-- The regmarker entries as submitted back by the form: marker values
stripped of their display labels, actions unchanged. -/
def submittedRegmarkers (vs : List Scalar) : List Scalar :=
  vs.map (fun sc =>
    match sc with
    | .dict m => .dict { marker := m.marker.map stripDisplayLabel,
                         action := m.action }
    | x => x)

/-- The round trip of a record whose assertions are regulating-marker
assertions: hydrate with getregmarkerobjects, format the regmarker form
field, submit it back (display labels stripped), and dehydrate with
buildassertions. -/
def regmarkerRoundTrip (apo : List FieldMeta) (avs : List ValuesetRow)
    (ctx : List CtxRow) (api : String → MarkerResp)
    (assertions : List Assertion) : Option (List Assertion) :=
  match getregmarkerobjects api assertions [] with
  | none => none
  | some objs =>
    match regmarkerFormValue objs with
    | none => none
    | some vs =>
      buildassertions apo avs ctx
        [("regmarker", .list (submittedRegmarkers vs))]

/-- The predicate-term and code of every assertion object, the pairs
the round-trip claim compares. -/
def assertionPairs (l : List Assertion) : List (String × Scalar) :=
  l.foldr
    (fun a acc => a.objects.map (fun o => (a.predicate.term, o.code)) ++ acc)
    []

/-! ### Well-formed provenance chains (claim C3)

A chain is presented oldest-first: the head has no predecessor, each
record names the next one as successor and is named by it as
predecessor, and the last record has no successor.  A collection of
records forming well-formed provenance chains is the flattening of a
list of such chains with globally distinct ids. -/

/-- The record r is followed by exactly the records of t, linked by
matching successor and predecessor pointers, and the last record has no
successor. -/
def linkedB : TRecord → List TRecord → Bool
  | r, [] => r.succ == none
  | r, b :: t => r.succ == some b.id && b.pred == some r.id && linkedB b t

/-- A non-empty, oldest-first, well-formed provenance chain with
non-empty ids. -/
def wfChainB : List TRecord → Bool
  | [] => false
  | h :: t => h.pred == none && (h :: t).all (fun r => r.id != "") && linkedB h t

/-- The successive dict writes of the forward walk: each id of the list
receives the next version number. -/
def upsertRun (vm : VMap) : List String → Nat → VMap
  | [], _ => vm
  | i :: t, v => upsertRun (upsert vm i v) t (v + 1)

/-- The writes the forward walk performs for one chain, versions
starting at 1. -/
def chainUpserts (vm : VMap) (c : List TRecord) : VMap :=
  upsertRun vm (c.map TRecord.id) 1

/-- The version map assigns the records of the list the consecutive
versions v, v+1, ... in order. -/
def versionsFrom (vm : VMap) : Nat → List TRecord → Prop
  | _, [] => True
  | v, r :: t => lookupKey vm r.id = some v ∧ versionsFrom vm (v + 1) t

/-- The strictly linear tree whose spine is the given id list, each
node annotated with its version from the map: the shape the builder
produces for a well-formed chain, newest id outermost. -/
def nestedNode (vm : VMap) : List String → Node
  | [] => .mk "" none []
  | [i] => .mk i (lookupKey vm i) []
  | i :: rest => .mk i (lookupKey vm i) [nestedNode vm rest]

/-- The id of the head record of a chain (a dummy for the empty list,
which is not a well-formed chain). -/
def headIdD : List TRecord → String
  | [] => ""
  | h :: _ => h.id

/-- Each record of the list is the chain successor of the one before
it, starting from b, and so its node receives exactly the node of its
predecessor as child. -/
def adjOk (rs : List TRecord) : TRecord → List TRecord → Prop
  | _, [] => True
  | b, a :: t => childIds rs a.id = [b.id] ∧ adjOk rs a t

/-- The replacement function applied to every entry in the
already-present branch of upsert. -/
def replaceEntry {β : Type} (k : String) (v : β) (p : String × β) : String × β :=
  if p.1 == k then (k, v) else p
/-- The form data of the C1 scenario: regulating-marker entries tagged
up_regulates, up_regulates and down_regulates, in that order. -/
def fdC1 : FormData :=
  [("regmarker", .list
    [ .dict ⟨some "HGNC:1", some "up_regulates"⟩,
      .dict ⟨some "HGNC:2", some "up_regulates"⟩,
      .dict ⟨some "HGNC:3", some "down_regulates"⟩ ])]
/-- The up_regulates assertion emitted for the C1 scenario (every copy
carries the final contents of the shared up-bucket list). -/
def upC1 : Assertion :=
  { predicate := { term := "up_regulates" },
    objects := [ { source := some "external", code := .s "HGNC:1" },
                 { source := some "external", code := .s "HGNC:2" } ] }
/-- The down_regulates assertion emitted for the C1 scenario. -/
def downC1 : Assertion :=
  { predicate := { term := "down_regulates" },
    objects := [ { source := some "external", code := .s "HGNC:3" } ] }
/-- A malformed collection for claim C4: the chain root A points to B,
and B and C form a successor cycle (B to C to B) reachable from the
root. -/
def rsC4 : List TRecord :=
  [ { id := "A", pred := none, succ := some "B" },
    { id := "B", pred := some "A", succ := some "C" },
    { id := "C", pred := some "B", succ := some "B" } ]
/-- Concrete form data for the C8 witness. -/
def fdC8w : FormData :=
  [("senotypeid", .scalar (.s "SNT001")), ("regmarker", .list [])]
/-- The store produced by the C8 witness write. -/
def stC8w : Store :=
  [("SNT001",
    { senotype := { id := "SNT001", provenance := {} },
      submitter := { name := {} }, assertions := [] })]
/-- Concrete form data for the C6 witness. -/
def fdC6w : FormData :=
  [("senotypeid", .scalar (.s "SNT002")), ("regmarker", .list [])]
/-- The store produced by the C6 witness write. -/
def stC6w : Store :=
  [("SNT002",
    { senotype := { id := "SNT002", provenance := {} },
      submitter := { name := {} }, assertions := [] })]
/-- The stored predecessor record of the C2 witness: a published record
(doi present) with no successor. -/
def jC2w : SubmissionJson :=
  { senotype := { id := "SNT-P", provenance := {},
                  doi := some "https://doi.org/10.1/x" },
    submitter := { name := {} }, assertions := [] }
/-- Concrete form data for the C2 witness: the form names the
predecessor id. -/
def fdC2w : FormData :=
  [("senotypeid", .scalar (.s "SNT-P")), ("regmarker", .list [])]
/-- The store produced by the C2 witness write: the predecessor rewired
to the new version, and the new version with no doi. -/
def stC2w : Store :=
  [("SNT-P",
    { senotype := { id := "SNT-P",
                    provenance := { successor := some "SNT-Q" },
                    doi := some "https://doi.org/10.1/x" },
      submitter := { name := {} }, assertions := [] }),
   ("SNT-Q",
    { senotype := { id := "SNT-Q",
                    provenance := { predecessor := some "SNT-P" } },
      submitter := { name := {} }, assertions := [] })]
/-- The stored record of the C5 scenario: one up_regulates and one
down_regulates marker assertion. -/
def recC5 : List Assertion :=
  [ { predicate := { term := "up_regulates" },
      objects := [{ code := .s "HGNC:1" }] },
    { predicate := { term := "down_regulates" },
      objects := [{ code := .s "HGNC:2" }] } ]
/-- The marker API of the C5 scenario: it always responds with an empty
list, so every code resolves to itself as a placeholder label and no
call raises. -/
def mapiC5 : String → MarkerResp := fun _ => .ok []
/-- The round-trip output of the C5 scenario. -/
def outC5 : List Assertion :=
  [ { predicate := { term := "down_regulates" },
      objects := [{ source := some "external", code := .s "HGNC:2" }] } ]
/-- The citation API of the C9 counterexample: the call for pmid 111
raises after its retries are exhausted, while pmid 222 resolves. -/
def capiC9 : String → CitResp := fun p =>
  if p = "111" then .exn
  else .ok { result := some [("222", { title := some "Title two" })] }
/-- The citation objects of the C9 counterexample. -/
def cobjsC9 : List Obj :=
  [{ code := .s "PMID:111" }, { code := .s "PMID:222" }]
/-- The citation API of the C9 witness: every call responds, covering
only pmid 1. -/
def capiC9w : String → CitResp := fun _ =>
  .ok { result := some [("1", { title := some "T" })] }
/-- The marker API of the C9 witness: every call responds with an empty
list, so no code is identified. -/
def mapiC9w : String → MarkerResp := fun _ => .ok []
/-- The citation objects of the C9 witness. -/
def cobjsC9w : List Obj := [{ code := .s "PMID:1" }, { code := .s "PMID:2" }]
/-- The marker objects of the C9 witness: a well-formed code the
service does not know and a malformed code. -/
def mobjsC9w : List Obj := [{ code := .s "HGNC:5" }, { code := .s "bad" }]
/-- A concrete well-formed forest for the C3 witness: one three-version
chain and one single-version chain. -/
def FC3w : List (List TRecord) :=
  [ [ { id := "A1", pred := none, succ := some "A2" },
      { id := "A2", pred := some "A1", succ := some "A3" },
      { id := "A3", pred := some "A2", succ := none } ],
    [ { id := "B1", pred := none, succ := none } ] ]

/-! ## Theorems -/

/-- Claim C7: for every id string, description string and max length,
the truncation function renders the id followed by the parenthesised
description, truncating to the max length with a trailing ellipsis
exactly when the description length strictly exceeds the max (no
ellipsis at equality); at the claimed example inputs it produces the
claimed strings. -/
theorem claim_C7_truncation (displayid description : String) (m : Nat) :
    (truncateddisplaytext displayid description (m : Int) =
      if pylen description > m
      then displayid ++ " (" ++ pytake description m ++ "...)"
      else displayid ++ " (" ++ description ++ ")")
    ∧ truncateddisplaytext "GO:001" "a very long description text" 10
        = "GO:001 (a very lon...)"
    ∧ truncateddisplaytext "GO:002" "short" 10 = "GO:002 (short)" := by
  refine ⟨?_, by decide, by decide⟩
  have h0 : ¬ ((m : Int) < 0) := by omega
  by_cases h : pylen description > m
  · have hlt : (m : Int) < (pylen description : Int) := by exact_mod_cast h
    rw [if_pos h]
    apply String.ext
    simp [truncateddisplaytext, h0, hlt, Int.toNat_natCast, String.data_append]
  · have hge : ¬ ((m : Int) < (pylen description : Int)) := by
      exact_mod_cast h
    have htake : pytake description m = description := by
      apply String.ext
      simp only [pytake]
      exact List.take_of_length_le (by simpa [pylen] using Nat.not_lt.mp h)
    rw [if_neg h]
    apply String.ext
    simp [truncateddisplaytext, h0, hge, Int.toNat_natCast, String.data_append,
      htake]

/-- Claim C10: the context-assertion builder returns from inside its
loop over the context table after processing only the first row, so its
result is determined by the first context row alone, contains at most
one assertion, and that assertion is the has_context assertion of the
first context; later contexts never contribute. -/
theorem claim_C10_context_first_row_only (row : CtxRow) (rest : List CtxRow)
    (fd : FormData) :
    buildcontextassertions (row :: rest) fd = buildcontextassertions [row] fd
    ∧ ((buildcontextassertions (row :: rest) fd).getD []).length ≤ 1
    ∧ ((buildcontextassertions (row :: rest) fd).getD []).all
        (fun a => a.predicate.term == "has_context"
          && a.objects.all (fun o => o.term == some row.context_name
               && o.code == Scalar.s row.code)) := by
  refine ⟨rfl, ?_, ?_⟩ <;>
    by_cases h : fdGet fd row.context_name = .scalar .null <;>
      simp [buildcontextassertions, h]

/-- Claim C1 refuted by the code (code bug): because the source appends
assertions inside its loop over the markers, a submission with two
up_regulates entries and one down_regulates entry dehydrates to four
assertions, three of which are duplicate up_regulates assertions,
rather than to the exactly two assertions the claim states. -/
theorem claim_C1_regmarker_duplicate_assertions :
    buildregmarkerassertions fdC1 = some [upC1, upC1, upC1, downC1]
    ∧ ((buildregmarkerassertions fdC1).getD []).length = 4
    ∧ ((buildregmarkerassertions fdC1).getD []).count upC1 = 3 := by
  refine ⟨by decide, by decide, by decide⟩

/-- The forward walk of the version-tree builder loops forever between
B and C of the cyclic collection: no recursion depth completes it. -/
theorem assignVersions_rsC4_cycle :
    ∀ fuel, (∀ vm v, assignVersions rsC4 fuel vm "B" v
               = .error .fuelExhausted)
          ∧ (∀ vm v, assignVersions rsC4 fuel vm "C" v
               = .error .fuelExhausted) := by
  intro fuel
  induction fuel with
  | zero => exact ⟨fun _ _ => rfl, fun _ _ => rfl⟩
  | succ n ih =>
    have hB : recById rsC4 "B"
        = some { id := "B", pred := some "A", succ := some "C" } := by rfl
    have hC : recById rsC4 "C"
        = some { id := "C", pred := some "B", succ := some "B" } := by rfl
    refine ⟨fun vm v => ?_, fun vm v => ?_⟩
    · simp only [assignVersions, hB, truthy]
      simpa using ih.2 (upsert vm "B" v) (v + 1)
    · simp only [assignVersions, hC, truthy]
      simpa using ih.1 (upsert vm "C" v) (v + 1)

/-- Claim C4 refuted by the code (code bug): on the cyclic collection
rsC4 the version-tree builder's forward walk never terminates, whatever
recursion depth is granted: the source recursion assign_versions_from_
oldest has no visited-set guard, so Python recurses B, C, B, C, ...
until the interpreter's recursion limit aborts the request instead of
reporting the anomaly. -/
theorem claim_C4_cycle_walk_never_terminates :
    ∀ fuel, buildVersionMap rsC4 fuel = .error .fuelExhausted := by
  have hA : ∀ fuel vm v, assignVersions rsC4 fuel vm "A" v
      = .error .fuelExhausted := by
    intro fuel vm v
    match fuel with
    | 0 => rfl
    | n + 1 =>
      have hAr : recById rsC4 "A"
          = some { id := "A", pred := none, succ := some "B" } := by rfl
      simp only [assignVersions, hAr, truthy]
      simpa using (assignVersions_rsC4_cycle n).1 (upsert vm "A" v) (v + 1)
  intro fuel
  have hold : oldestIds rsC4 = ["A"] := by rfl
  simp only [buildVersionMap, hold, List.foldlM, hA fuel]
  rfl

/-! ### Association-list lemmas shared by the write-orchestration
claims -/

section UpsertLemmas

variable {β : Type}

theorem lookupKey_nil (k : String) : lookupKey ([] : List (String × β)) k = none :=
  rfl

theorem lookupKey_cons (x : String × β) (t : List (String × β)) (k : String) :
    lookupKey (x :: t) k = if x.1 = k then some x.2 else lookupKey t k := by
  by_cases h : x.1 = k
  · simp [lookupKey, List.find?_cons_of_pos, h]
  · simp [lookupKey, List.find?_cons_of_neg, h]

theorem upsert_of_any (l : List (String × β)) (k : String) (v : β)
    (h : l.any (fun q => q.1 == k) = true) :
    upsert l k v = l.map (replaceEntry k v) := by
  simp [upsert, h, replaceEntry]

theorem upsert_of_not_any (l : List (String × β)) (k : String) (v : β)
    (h : l.any (fun q => q.1 == k) = false) :
    upsert l k v = l ++ [(k, v)] := by
  simp [upsert, h]

theorem lookupKey_replace_self (l : List (String × β)) (k : String) (v : β)
    (hmem : l.any (fun q => q.1 == k) = true) :
    lookupKey (l.map (replaceEntry k v)) k = some v := by
  induction l with
  | nil => simp at hmem
  | cons p t ih =>
    by_cases hp : p.1 = k
    · have : replaceEntry k v p = (k, v) := by simp [replaceEntry, hp]
      rw [List.map_cons, this, lookupKey_cons]
      simp
    · have : replaceEntry k v p = p := by simp [replaceEntry, hp]
      rw [List.map_cons, this, lookupKey_cons, if_neg hp]
      apply ih
      simp only [List.any_cons] at hmem
      simpa [hp] using hmem

theorem lookupKey_replace_ne (l : List (String × β)) (k k' : String) (v : β)
    (h : k ≠ k') :
    lookupKey (l.map (replaceEntry k v)) k' = lookupKey l k' := by
  induction l with
  | nil => rfl
  | cons p t ih =>
    by_cases hp : p.1 = k
    · have hrep : replaceEntry k v p = (k, v) := by simp [replaceEntry, hp]
      have hp' : p.1 ≠ k' := by rw [hp]; exact h
      rw [List.map_cons, hrep, lookupKey_cons, lookupKey_cons,
        if_neg h, if_neg hp']
      exact ih
    · have hrep : replaceEntry k v p = p := by simp [replaceEntry, hp]
      rw [List.map_cons, hrep, lookupKey_cons, lookupKey_cons]
      by_cases hpk' : p.1 = k'
      · simp [hpk']
      · rw [if_neg hpk', if_neg hpk']
        exact ih

theorem lookupKey_append_single_self (l : List (String × β)) (k : String)
    (v : β) (hmem : l.any (fun q => q.1 == k) = false) :
    lookupKey (l ++ [(k, v)]) k = some v := by
  induction l with
  | nil => simp [lookupKey_cons]
  | cons p t ih =>
    simp only [List.any_cons, Bool.or_eq_false_iff] at hmem
    have hp : p.1 ≠ k := by
      intro hc
      simp [hc] at hmem
    rw [List.cons_append, lookupKey_cons, if_neg hp]
    exact ih hmem.2

theorem lookupKey_append_single_ne (l : List (String × β)) (k k' : String)
    (v : β) (h : k ≠ k') :
    lookupKey (l ++ [(k, v)]) k' = lookupKey l k' := by
  induction l with
  | nil => simp [lookupKey_cons, lookupKey_nil, h]
  | cons p t ih =>
    rw [List.cons_append, lookupKey_cons, lookupKey_cons]
    by_cases hpk' : p.1 = k'
    · simp [hpk']
    · rw [if_neg hpk', if_neg hpk']
      exact ih

theorem lookupKey_upsert_self (l : List (String × β)) (k : String) (v : β) :
    lookupKey (upsert l k v) k = some v := by
  by_cases hmem : l.any (fun q => q.1 == k)
  · rw [upsert_of_any l k v hmem]
    exact lookupKey_replace_self l k v hmem
  · have hmem' : l.any (fun q => q.1 == k) = false := by
      simp only [Bool.not_eq_true] at hmem
      exact hmem
    rw [upsert_of_not_any l k v hmem']
    exact lookupKey_append_single_self l k v hmem'

theorem lookupKey_upsert_ne (l : List (String × β)) (k k' : String) (v : β)
    (h : k ≠ k') : lookupKey (upsert l k v) k' = lookupKey l k' := by
  by_cases hmem : l.any (fun q => q.1 == k)
  · rw [upsert_of_any l k v hmem]
    exact lookupKey_replace_ne l k k' v h
  · have hmem' : l.any (fun q => q.1 == k) = false := by
      simp only [Bool.not_eq_true] at hmem
      exact hmem
    rw [upsert_of_not_any l k v hmem']
    exact lookupKey_append_single_ne l k k' v h

theorem upsert_idem (l : List (String × β)) (k : String) (v : β) :
    upsert (upsert l k v) k v = upsert l k v := by
  by_cases hmem : l.any (fun q => q.1 == k)
  · rw [upsert_of_any l k v hmem]
    have hany2 : (l.map (replaceEntry k v)).any (fun q => q.1 == k) = true := by
      rw [List.any_eq_true] at hmem ⊢
      obtain ⟨p, hp, hpk⟩ := hmem
      exact ⟨(k, v), List.mem_map.mpr ⟨p, hp, by simp [replaceEntry, hpk]⟩,
        by simp⟩
    rw [upsert_of_any _ k v hany2, List.map_map]
    apply List.map_congr_left
    intro p _
    by_cases hpk : p.1 = k <;> simp [replaceEntry, hpk]
  · have hmem' : l.any (fun q => q.1 == k) = false := by
      simp only [Bool.not_eq_true] at hmem
      exact hmem
    rw [upsert_of_not_any l k v hmem']
    have hany2 : ((l ++ [(k, v)]).any (fun q => q.1 == k)) = true := by simp
    rw [upsert_of_any _ k v hany2, List.map_append]
    congr 1
    · calc List.map (replaceEntry k v) l
          = List.map id l := by
            apply List.map_congr_left
            intro p hp
            have hne : ¬ ((p.1 == k) = true) := by
              rw [List.any_eq_false] at hmem'
              exact hmem' p hp
            simp only [replaceEntry, id]
            rw [if_neg hne]
        _ = l := List.map_id l
    · simp [replaceEntry]

end UpsertLemmas

/-! ### Write-orchestration lemmas -/

theorem getsenotypejson_write_self (st : Store) (id : String)
    (j : SubmissionJson) : getsenotypejson (writesenotype st id j) id = some j :=
  lookupKey_upsert_self st id j

theorem getsenotypejson_write_ne (st : Store) (id id' : String)
    (j : SubmissionJson) (h : id ≠ id') :
    getsenotypejson (writesenotype st id j) id' = getsenotypejson st id' :=
  lookupKey_upsert_ne st id id' j h

/-- With a null predecessor id, getprovenanceids returns the stored
provenance unchanged for an existing id and a fresh null/null
provenance otherwise. -/
theorem getprovenanceids_no_predecessor (st : Store) (senotypeid : String) :
    getprovenanceids st senotypeid none =
      (match getsenotypejson st senotypeid with
       | some sj => sj.senotype.provenance
       | none => { predecessor := none, successor := none }) := by
  unfold getprovenanceids
  cases getsenotypejson st senotypeid <;> rfl

/-- The provenance and id stored in a successfully built submission
document. -/
theorem buildsubmissionjson_fields (apo : List FieldMeta)
    (avs : List ValuesetRow) (ctx : List CtxRow) (st : Store) (fd : FormData)
    (senotypeid : String) (predecessorid : Option String) (j : SubmissionJson)
    (h : buildsubmissionjson apo avs ctx st fd senotypeid predecessorid
      = some j) :
    j.senotype.provenance = getprovenanceids st senotypeid predecessorid
    ∧ j.senotype.id = senotypeid := by
  cases h1 : doiFromForm fd with
  | none => simp [buildsubmissionjson, h1] at h
  | some doiurl =>
    cases h2 : buildassertions apo avs ctx fd with
    | none => simp [buildsubmissionjson, h1, h2] at h
    | some asserts =>
      simp only [buildsubmissionjson, h1, h2] at h
      cases h
      exact ⟨rfl, rfl⟩

/-- The store enters buildsubmissionjson only through getprovenanceids. -/
theorem buildsubmissionjson_store_congr (apo : List FieldMeta)
    (avs : List ValuesetRow) (ctx : List CtxRow) (st st' : Store)
    (fd : FormData) (senotypeid : String) (predecessorid : Option String)
    (h : getprovenanceids st senotypeid predecessorid
      = getprovenanceids st' senotypeid predecessorid) :
    buildsubmissionjson apo avs ctx st fd senotypeid predecessorid
      = buildsubmissionjson apo avs ctx st' fd senotypeid predecessorid := by
  unfold buildsubmissionjson
  rw [h]

/-- Claim C8: a write with a null predecessor id preserves the stored
provenance of an existing target id unchanged, and gives a fresh target
id the provenance with null predecessor and null successor. -/
theorem claim_C8_null_predecessor_provenance (apo : List FieldMeta)
    (avs : List ValuesetRow) (ctx : List CtxRow) (st : Store) (fd : FormData)
    (sid : String) (st' : Store)
    (hsid : fdGet fd "senotypeid" = .scalar (.s sid))
    (h : writesubmission apo avs ctx st fd "" = some st') :
    ∃ j', getsenotypejson st' sid = some j'
      ∧ j'.senotype.provenance =
          (match getsenotypejson st sid with
           | some old => old.senotype.provenance
           | none => { predecessor := none, successor := none }) := by
  simp only [writesubmission, if_pos rfl, hsid] at h
  cases hb : buildsubmissionjson apo avs ctx st fd sid none with
  | none => rw [hb] at h; cases h
  | some j =>
    rw [hb] at h
    cases h
    refine ⟨j, getsenotypejson_write_self st sid j, ?_⟩
    rw [(buildsubmissionjson_fields apo avs ctx st fd sid none j hb).1]
    exact getprovenanceids_no_predecessor st sid

section KeyCount

variable {β : Type}

theorem keys_map_replace (l : List (String × β)) (k : String) (v : β) :
    (l.map (replaceEntry k v)).map Prod.fst = l.map Prod.fst := by
  rw [List.map_map]
  apply List.map_congr_left
  intro p _
  by_cases hp : p.1 = k <;> simp [replaceEntry, Function.comp, hp]

/-- Upserting into a store with distinct keys leaves exactly one entry
under the key. -/
theorem count_keys_upsert (l : List (String × β)) (k : String) (v : β)
    (hnodup : (l.map Prod.fst).Nodup) :
    List.count k ((upsert l k v).map Prod.fst) = 1 := by
  by_cases hmem : l.any (fun q => q.1 == k)
  · rw [upsert_of_any _ _ _ hmem, keys_map_replace]
    have hk : k ∈ l.map Prod.fst := by
      rw [List.any_eq_true] at hmem
      obtain ⟨p, hp, hpk⟩ := hmem
      exact List.mem_map.mpr ⟨p, hp, by simpa using hpk⟩
    exact List.count_eq_one_of_mem hnodup hk
  · have hmem' : l.any (fun q => q.1 == k) = false := by
      simp only [Bool.not_eq_true] at hmem
      exact hmem
    rw [upsert_of_not_any _ _ _ hmem', List.map_append, List.count_append]
    have h0 : List.count k (l.map Prod.fst) = 0 := by
      rw [List.count_eq_zero]
      intro hk
      obtain ⟨p, hp, hpk⟩ := List.mem_map.mp hk
      rw [List.any_eq_false] at hmem'
      exact hmem' p hp (by simpa using hpk)
    simp [h0]

end KeyCount

/-- Claim C6: with a null predecessor id and identical form data, a
second write is a no-op: it succeeds and returns the store produced by
the first write unchanged, and that store holds exactly one record
under the target id (upsert semantics). -/
theorem claim_C6_write_idempotent (apo : List FieldMeta)
    (avs : List ValuesetRow) (ctx : List CtxRow) (st : Store) (fd : FormData)
    (sid : String) (st1 : Store)
    (hnodup : (st.map Prod.fst).Nodup)
    (hsid : fdGet fd "senotypeid" = .scalar (.s sid))
    (h1 : writesubmission apo avs ctx st fd "" = some st1) :
    writesubmission apo avs ctx st1 fd "" = some st1
    ∧ List.count sid (st1.map Prod.fst) = 1 := by
  simp only [writesubmission, if_pos rfl, hsid] at h1 ⊢
  cases hb : buildsubmissionjson apo avs ctx st fd sid none with
  | none => rw [hb] at h1; cases h1
  | some j =>
    rw [hb] at h1
    cases h1
    have hprov1 : getprovenanceids (writesenotype st sid j) sid none
        = j.senotype.provenance := by
      rw [getprovenanceids_no_predecessor, getsenotypejson_write_self]
    have hprov0 : j.senotype.provenance = getprovenanceids st sid none :=
      (buildsubmissionjson_fields apo avs ctx st fd sid none j hb).1
    have hb2 : buildsubmissionjson apo avs ctx (writesenotype st sid j) fd sid
        none = some j := by
      rw [buildsubmissionjson_store_congr apo avs ctx
        (writesenotype st sid j) st fd sid none (by rw [hprov1, hprov0])]
      exact hb
    constructor
    · rw [hb2]
      show some (writesenotype (writesenotype st sid j) sid j)
        = some (writesenotype st sid j)
      unfold writesenotype
      rw [upsert_idem]
    · exact count_keys_upsert st sid j hnodup

/-- Claim C2: after the new-version write for a fresh id Q with
predecessor P, the store holds P unchanged except that its provenance
successor is Q, and holds Q with a null doi, predecessor P and null
successor. -/
theorem claim_C2_new_version_provenance (apo : List FieldMeta)
    (avs : List ValuesetRow) (ctx : List CtxRow) (st : Store) (fd : FormData)
    (pid qid : String) (st' : Store) (jP : SubmissionJson) (d : String)
    (hP : getsenotypejson st pid = some jP)
    (hPdoi : jP.senotype.doi = some d)
    (hPsucc : jP.senotype.provenance.successor = none)
    (hQ : getsenotypejson st qid = none)
    (hform : fdGet fd "senotypeid" = .scalar (.s pid))
    (hq : qid ≠ "")
    (h : writesubmission apo avs ctx st fd qid = some st') :
    getsenotypejson st' pid = some
      { jP with senotype :=
          { jP.senotype with provenance :=
              { jP.senotype.provenance with successor := some qid } } }
    ∧ ∃ jQ, getsenotypejson st' qid = some jQ
        ∧ jQ.senotype.doi = none
        ∧ jQ.senotype.provenance.predecessor = some pid
        ∧ jQ.senotype.provenance.successor = none := by
  have hpq : pid ≠ qid := by
    intro hc
    rw [hc, hQ] at hP
    cases hP
  simp only [writesubmission, if_neg hq, hform] at h
  cases hb : buildsubmissionjson apo avs ctx st fd qid (some pid) with
  | none => rw [hb] at h; cases h
  | some j =>
    rw [hb] at h
    have hst1P : getsenotypejson (writesenotype st qid (clearDoi j)) pid
        = some jP := by
      rw [getsenotypejson_write_ne st qid pid (clearDoi j) (Ne.symm hpq)]
      exact hP
    simp only [updatesuccessor, hst1P] at h
    cases h
    constructor
    · exact getsenotypejson_write_self _ pid _
    · refine ⟨clearDoi j, ?_, rfl, ?_, ?_⟩
      · rw [getsenotypejson_write_ne _ pid qid _ hpq]
        exact getsenotypejson_write_self _ qid _
      · show j.senotype.provenance.predecessor = some pid
        rw [(buildsubmissionjson_fields apo avs ctx st fd qid (some pid) j
          hb).1]
        simp [getprovenanceids, hQ]
      · show j.senotype.provenance.successor = none
        rw [(buildsubmissionjson_fields apo avs ctx st fd qid (some pid) j
          hb).1]
        simp [getprovenanceids, hQ]

/-- Witness for claim C8 at a concrete fresh-id write. -/
theorem claim_C8_null_predecessor_provenance_witness :
    fdGet fdC8w "senotypeid" = FieldValue.scalar (.s "SNT001")
    ∧ writesubmission [] [] [⟨"age", "C0001779"⟩] [] fdC8w "" = some stC8w
    ∧ (∃ j', getsenotypejson stC8w "SNT001" = some j'
        ∧ j'.senotype.provenance =
            (match getsenotypejson ([] : Store) "SNT001" with
             | some old => old.senotype.provenance
             | none => { predecessor := none, successor := none })) :=
  ⟨rfl, rfl,
    claim_C8_null_predecessor_provenance [] [] [⟨"age", "C0001779"⟩] []
      fdC8w "SNT001" stC8w rfl rfl⟩

/-- Witness for claim C6 at a concrete double write. -/
theorem claim_C6_write_idempotent_witness :
    (([] : Store).map Prod.fst).Nodup
    ∧ fdGet fdC6w "senotypeid" = FieldValue.scalar (.s "SNT002")
    ∧ writesubmission [] [] [⟨"age", "C0001779"⟩] [] fdC6w "" = some stC6w
    ∧ (writesubmission [] [] [⟨"age", "C0001779"⟩] stC6w fdC6w "" = some stC6w
       ∧ List.count "SNT002" (stC6w.map Prod.fst) = 1) :=
  ⟨List.nodup_nil, rfl, rfl,
    claim_C6_write_idempotent [] [] [⟨"age", "C0001779"⟩] [] fdC6w "SNT002"
      stC6w List.nodup_nil rfl rfl⟩

/-- Witness for claim C2 at a concrete new-version write. -/
theorem claim_C2_new_version_provenance_witness :
    getsenotypejson [("SNT-P", jC2w)] "SNT-P" = some jC2w
    ∧ jC2w.senotype.doi = some "https://doi.org/10.1/x"
    ∧ jC2w.senotype.provenance.successor = none
    ∧ getsenotypejson [("SNT-P", jC2w)] "SNT-Q" = none
    ∧ fdGet fdC2w "senotypeid" = FieldValue.scalar (.s "SNT-P")
    ∧ "SNT-Q" ≠ ""
    ∧ writesubmission [] [] [⟨"age", "C0001779"⟩] [("SNT-P", jC2w)] fdC2w
        "SNT-Q" = some stC2w
    ∧ (getsenotypejson stC2w "SNT-P" = some
        { jC2w with senotype :=
            { jC2w.senotype with provenance :=
                { jC2w.senotype.provenance with successor := some "SNT-Q" } } }
      ∧ ∃ jQ, getsenotypejson stC2w "SNT-Q" = some jQ
          ∧ jQ.senotype.doi = none
          ∧ jQ.senotype.provenance.predecessor = some "SNT-P"
          ∧ jQ.senotype.provenance.successor = none) :=
  ⟨rfl, rfl, rfl, rfl, rfl, by decide, rfl,
    claim_C2_new_version_provenance [] [] [⟨"age", "C0001779"⟩]
      [("SNT-P", jC2w)] fdC2w "SNT-P" "SNT-Q" stC2w jC2w
      "https://doi.org/10.1/x"
      rfl rfl rfl rfl rfl (by decide) rfl⟩

/-- Claim C5 refuted by the code (code bug): the round trip of the
record recC5 drops the pair (up_regulates, HGNC:1), because
getregmarkerobjects overwrites its result list on every matching
assertion instead of extending it, so only the markers of the last
regulating assertion reach the form (and buildcontextassertions, per
claim C10, would likewise drop every context after the first table
row). -/
theorem claim_C5_roundtrip_loses_pairs :
    regmarkerRoundTrip [] [] [⟨"age", "C0001779"⟩] mapiC5 recC5 = some outC5
    ∧ assertionPairs recC5 =
        [("up_regulates", Scalar.s "HGNC:1"),
         ("down_regulates", Scalar.s "HGNC:2")]
    ∧ assertionPairs outC5 = [("down_regulates", Scalar.s "HGNC:2")]
    ∧ ("up_regulates", Scalar.s "HGNC:1") ∉ assertionPairs outC5 := by
  refine ⟨by decide, by decide, by decide, by decide⟩

/-- Claim C9 refuted as stated: when resolving the first citation code
fails with a transport failure after retries, the whole hydration
aborts (the exception propagates out of getcitationobjects), instead of
giving the failing object a placeholder label and continuing with the
remaining sibling, which would resolve. -/
theorem claim_C9_transport_failure_aborts :
    getcitationobjects capiC9 cobjsC9 = none := by
  rfl

/-- Claim C9 as amended: when every external call returns a response
(no transport exception), citation and marker hydration never abort;
they return one output object per input object, resolved independently;
a marker code the service responds to but does not identify keeps the
code itself as placeholder label, a malformed marker code gets a None
label, and a citation pmid the service response does not cover gets the
label unknown.  (A transport exception, by claim_C9_transport_failure_
aborts, instead aborts the whole batch.) -/
theorem claim_C9_amended_known_service_placeholders
    (capi : String → CitResp) (mapi : String → MarkerResp)
    (hc : ∀ u, capi u ≠ CitResp.exn) (hm : ∀ u, mapi u ≠ MarkerResp.exn)
    (cobjs mobjs : List Obj)
    (hcc : ∀ o ∈ cobjs, ∃ c, o.code = Scalar.s c
      ∧ 2 ≤ (pysplitChar ':' c.data).length)
    (hmc : ∀ o ∈ mobjs, ∃ c, o.code = Scalar.s c) :
    getcitationobjects capi cobjs = some (cobjs.map (citHydrated capi))
    ∧ getmarkerobjects mapi mobjs = some (mobjs.map (markerHydrated mapi))
    ∧ (∀ o c, o.code = Scalar.s c → malformedCode (pystrip c) = true →
        (markerHydrated mapi o).term = none)
    ∧ (∀ o c, o.code = Scalar.s c → malformedCode (pystrip c) = false →
        respUnknown (mapi (markerUrl (pystrip c))) = true →
        (markerHydrated mapi o).term = some (pystrip c))
    ∧ (∀ o c r, o.code = Scalar.s c → capi (pmidOf c) = CitResp.ok r →
        (r.result = none ∨ lookupKey (r.result.getD []) (pmidOf c) = none) →
        (citHydrated capi o).term = some "unknown") := by
  refine ⟨?_, ?_, ?_, ?_, ?_⟩
  · induction cobjs with
    | nil => rfl
    | cons o rest ih =>
      obtain ⟨c, hcode, hlen⟩ := hcc o (List.mem_cons_self o rest)
      have hrest := ih (fun x hx => hcc x (List.mem_cons_of_mem _ hx))
      obtain ⟨x, hx⟩ : ∃ x, (pysplitChar ':' c.data).get? 1 = some x := by
        cases hg : (pysplitChar ':' c.data).get? 1 with
        | none => exact absurd (List.get?_eq_none.mp hg) (by omega)
        | some x => exact ⟨x, rfl⟩
      have hpm : pmidOf c = ⟨x⟩ := by
        simp only [pmidOf, List.getD_eq_get?, hx, Option.getD_some]
      cases hapi : capi (⟨x⟩ : String) with
      | exn => exact absurd hapi (hc _)
      | ok r =>
        simp only [getcitationobjects, hcode, hx, hapi, hrest]
        simp [citHydrated, hcode, hpm, hapi]
  · induction mobjs with
    | nil => rfl
    | cons o rest ih =>
      obtain ⟨c, hcode⟩ := hmc o (List.mem_cons_self o rest)
      have hrest := ih (fun x hx => hmc x (List.mem_cons_of_mem _ hx))
      by_cases hmal : malformedCode (pystrip c) = true
      · simp only [getmarkerobjects, hcode, hmal, if_pos, hrest]
        simp [markerHydrated, hcode, hmal]
      · have hmal' : malformedCode (pystrip c) = false := by
          simp only [Bool.not_eq_true] at hmal
          exact hmal
        cases hapi : mapi (markerUrl (pystrip c)) with
        | exn => exact absurd hapi (hm _)
        | notAList =>
          simp only [getmarkerobjects, hcode, hmal', hapi, hrest]
          simp [markerHydrated, hcode, hmal', hapi]
        | ok l =>
          simp only [getmarkerobjects, hcode, hmal', hapi, hrest]
          simp [markerHydrated, hcode, hmal', hapi]
  · intro o c hcode hmal
    simp [markerHydrated, hcode, hmal]
  · intro o c hcode hmal' hunk
    simp only [markerHydrated, hcode, hmal', Bool.false_eq_true, if_neg,
      not_false_eq_true]
    cases hapi : mapi (markerUrl (pystrip c)) with
    | exn => exact absurd hapi (hm _)
    | notAList => simp [markerTermOf]
    | ok l =>
      rw [hapi] at hunk
      cases l with
      | nil => simp [markerTermOf]
      | cons hd tl =>
        cases hd with
        | none => simp [markerTermOf]
        | some d => simp [respUnknown] at hunk
  · intro o c r hcode hapi hmiss
    simp only [citHydrated, hcode, hapi]
    cases hr : r.result with
    | none => rfl
    | some entries =>
      rcases hmiss with h | h
      · rw [hr] at h; cases h
      · rw [hr] at h
        simp only [Option.getD] at h
        simp [h]

/-- Witness for the amended claim C9 at concrete always-responding
resolvers. -/
theorem claim_C9_amended_witness :
    (∀ u, capiC9w u ≠ CitResp.exn)
    ∧ (∀ u, mapiC9w u ≠ MarkerResp.exn)
    ∧ (∀ o ∈ cobjsC9w, ∃ c, o.code = Scalar.s c
        ∧ 2 ≤ (pysplitChar ':' c.data).length)
    ∧ (∀ o ∈ mobjsC9w, ∃ c, o.code = Scalar.s c)
    ∧ getcitationobjects capiC9w cobjsC9w
        = some (cobjsC9w.map (citHydrated capiC9w))
    ∧ getmarkerobjects mapiC9w mobjsC9w
        = some (mobjsC9w.map (markerHydrated mapiC9w)) := by
  have hc : ∀ u, capiC9w u ≠ CitResp.exn := fun u h => nomatch h
  have hm : ∀ u, mapiC9w u ≠ MarkerResp.exn := fun u h => nomatch h
  have hcc : ∀ o ∈ cobjsC9w, ∃ c, o.code = Scalar.s c
      ∧ 2 ≤ (pysplitChar ':' c.data).length := by
    intro o ho
    rcases List.mem_cons.mp ho with h | ho2
    · subst h; exact ⟨"PMID:1", rfl, by decide⟩
    · rcases List.mem_cons.mp ho2 with h | h
      · subst h; exact ⟨"PMID:2", rfl, by decide⟩
      · cases h
  have hmc : ∀ o ∈ mobjsC9w, ∃ c, o.code = Scalar.s c := by
    intro o ho
    rcases List.mem_cons.mp ho with h | ho2
    · subst h; exact ⟨"HGNC:5", rfl⟩
    · rcases List.mem_cons.mp ho2 with h | h
      · subst h; exact ⟨"bad", rfl⟩
      · cases h
  have main := claim_C9_amended_known_service_placeholders capiC9w mapiC9w
    hc hm cobjsC9w mobjsC9w hcc hmc
  exact ⟨hc, hm, hcc, hmc, main.1, main.2.1⟩

/-! ### Version-tree lemmas (claim C3) -/

section VersionTree

/-- With distinct ids, the senotype_by_id lookup of the id of a member
returns that member. -/
theorem recById_of_mem {rs : List TRecord}
    (hids : (rs.map TRecord.id).Nodup) {r : TRecord} (hr : r ∈ rs) :
    recById rs r.id = some r := by
  induction rs with
  | nil => cases hr
  | cons p t ih =>
    rcases List.mem_cons.mp hr with h | h
    · subst h
      simp [recById, List.find?_cons_of_pos]
    · have hne : p.id ≠ r.id := by
        intro hc
        have : p.id ∈ t.map TRecord.id := List.mem_map.mpr ⟨r, h, hc.symm⟩
        exact (List.nodup_cons.mp hids).1 this
      have : recById t r.id = some r :=
        ih (List.nodup_cons.mp hids).2 h
      simpa [recById, List.find?_cons_of_neg, hne] using this

/-- With distinct ids, two members with the same id are the same
record. -/
theorem eq_of_mem_of_id_eq {rs : List TRecord}
    (hids : (rs.map TRecord.id).Nodup) {r r' : TRecord}
    (hr : r ∈ rs) (hr' : r' ∈ rs) (h : r.id = r'.id) : r = r' := by
  have h1 := recById_of_mem hids hr
  have h2 := recById_of_mem hids hr'
  rw [h] at h1
  rw [h1] at h2
  exact Option.some_injective _ h2

/-- Ids outside the run keep their bindings. -/
theorem lookupKey_upsertRun_not_mem (ids : List String) :
    ∀ (vm : VMap) (v : Nat) (x : String), x ∉ ids →
      lookupKey (upsertRun vm ids v) x = lookupKey vm x := by
  induction ids with
  | nil => intro vm v x _; rfl
  | cons i t ih =>
    intro vm v x hx
    have hxi : i ≠ x := fun hc => hx (hc ▸ List.mem_cons_self i t)
    have hxt : x ∉ t := fun hc => hx (List.mem_cons_of_mem i hc)
    rw [upsertRun, ih (upsert vm i v) (v + 1) x hxt,
      lookupKey_upsert_ne vm i x v hxi]

/-- Running the walk writes over a chain with distinct ids assigns its
records the consecutive versions starting at v. -/
theorem versionsFrom_upsertRun (c : List TRecord) :
    ∀ (vm : VMap) (v : Nat), ((c.map TRecord.id).Nodup) →
      versionsFrom (upsertRun vm (c.map TRecord.id) v) v c := by
  induction c with
  | nil => intro vm v _; trivial
  | cons r t ih =>
    intro vm v hnd
    rw [List.map_cons] at hnd ⊢
    refine ⟨?_, ?_⟩
    · rw [upsertRun,
        lookupKey_upsertRun_not_mem (t.map TRecord.id) _ _ _
          (List.nodup_cons.mp hnd).1,
        lookupKey_upsert_self]
    · exact ih (upsert vm r.id v) (v + 1) (List.nodup_cons.mp hnd).2

/-- versionsFrom survives writes to ids outside the chain. -/
theorem versionsFrom_preserved (c : List TRecord) :
    ∀ (vm : VMap) (ids : List String) (v w : Nat),
      (∀ r ∈ c, r.id ∉ ids) → versionsFrom vm w c →
        versionsFrom (upsertRun vm ids v) w c := by
  induction c with
  | nil => intro vm ids v w _ _; trivial
  | cons r t ih =>
    intro vm ids v w hdisj hv
    refine ⟨?_, ?_⟩
    · rw [lookupKey_upsertRun_not_mem ids vm v r.id
        (hdisj r (List.mem_cons_self r t))]
      exact hv.1
    · exact ih vm ids v (w + 1)
        (fun x hx => hdisj x (List.mem_cons_of_mem r hx)) hv.2

/-- The forward walk along a linked chain whose records are all
indexed: it terminates within fuel at least the chain length and
performs exactly the chain writes. -/
theorem assignVersions_chain (rs : List TRecord) (t : List TRecord) :
    ∀ (s0 : TRecord) (fuel : Nat) (vm : VMap) (v : Nat),
      (∀ r ∈ s0 :: t, recById rs r.id = some r) →
      (∀ r ∈ s0 :: t, r.id ≠ "") →
      linkedB s0 t = true →
      (s0 :: t).length ≤ fuel →
      assignVersions rs fuel vm s0.id v
        = .ok (upsertRun vm ((s0 :: t).map TRecord.id) v) := by
  induction t with
  | nil =>
    intro s0 fuel vm v hrec _hne hlink hfuel
    cases fuel with
    | zero => simp at hfuel
    | succ n =>
      have hsucc : s0.succ = none := by simpa [linkedB] using hlink
      have h0 : recById rs s0.id = some s0 := hrec s0 (List.mem_cons_self _ _)
      simp [assignVersions, h0, hsucc, truthy, upsertRun]
  | cons b t2 ih =>
    intro s0 fuel vm v hrec hne hlink hfuel
    cases fuel with
    | zero => simp at hfuel
    | succ n =>
      simp only [linkedB, Bool.and_eq_true, beq_iff_eq] at hlink
      obtain ⟨⟨hsucc, _hpred⟩, hlink2⟩ := hlink
      have h0 : recById rs s0.id = some s0 := hrec s0 (List.mem_cons_self _ _)
      have hbid : b.id ≠ "" := hne b (by simp)
      have hrec2 : ∀ r ∈ b :: t2, recById rs r.id = some r :=
        fun r hr => hrec r (List.mem_cons_of_mem _ hr)
      have hne2 : ∀ r ∈ b :: t2, r.id ≠ "" :=
        fun r hr => hne r (List.mem_cons_of_mem _ hr)
      have hf2 : (b :: t2).length ≤ n := by
        simp only [List.length_cons] at hfuel ⊢
        omega
      have step := ih b n (upsert vm s0.id v) (v + 1) hrec2 hne2 hlink2 hf2
      clear ih
      simp only [assignVersions, h0, hsucc, truthy]
      simpa [hbid, upsertRun] using step

/-- The walk over the chain roots of a forest, started from each head
with version 1, performs the chain writes of every chain in order. -/
theorem foldlM_walk (rs : List TRecord) (fuel : Nat) :
    ∀ (cs : List (List TRecord)) (vm : VMap),
      (∀ c ∈ cs, wfChainB c = true) →
      (∀ c ∈ cs, ∀ r ∈ c, recById rs r.id = some r) →
      (∀ c ∈ cs, c.length ≤ fuel) →
      List.foldlM (fun vm i => assignVersions rs fuel vm i 1) vm
          (cs.map headIdD)
        = .ok (cs.foldl chainUpserts vm) := by
  intro cs
  induction cs with
  | nil => intro vm _ _ _; rfl
  | cons c cs2 ih =>
    intro vm hwf hrec hlen
    cases c with
    | nil =>
      have := hwf [] (List.mem_cons_self _ _)
      simp [wfChainB] at this
    | cons h t =>
      have hwfc := hwf (h :: t) (List.mem_cons_self _ _)
      simp only [wfChainB, Bool.and_eq_true, beq_iff_eq] at hwfc
      obtain ⟨⟨_hpred, hall⟩, hlink⟩ := hwfc
      have hne : ∀ r ∈ h :: t, r.id ≠ "" := by
        intro r hr
        have := List.all_eq_true.mp hall r hr
        simpa using this
      have hwalk := assignVersions_chain rs t h fuel vm 1
        (hrec (h :: t) (List.mem_cons_self _ _)) hne hlink
        (hlen (h :: t) (List.mem_cons_self _ _))
      simp only [List.map_cons, List.foldlM_cons, headIdD, hwalk]
      have hbind : ∀ (a : VMap) (g : VMap → Except WalkErr VMap),
          (Except.ok a : Except WalkErr VMap) >>= g = g a := fun a g => rfl
      rw [hbind]
      exact ih (chainUpserts vm (h :: t))
        (fun x hx => hwf x (List.mem_cons_of_mem _ hx))
        (fun x hx => hrec x (List.mem_cons_of_mem _ hx))
        (fun x hx => hlen x (List.mem_cons_of_mem _ hx))

/-- With distinct ids, the chain roots are the records without a truthy
predecessor, in table order. -/
theorem oldestIds_eq_filter (rs : List TRecord)
    (hids : (rs.map TRecord.id).Nodup) :
    oldestIds rs = (rs.filter (fun r => !(truthy r.pred))).map TRecord.id := by
  unfold oldestIds
  rw [List.filter_map]
  congr 1
  apply List.filter_congr
  intro r hr
  by_cases ht : truthy r.pred
  · have hmem : r.id ∈ predecessorKeys rs :=
      List.mem_map.mpr ⟨r, List.mem_filter.mpr ⟨hr, ht⟩, rfl⟩
    simp [Function.comp, hmem, ht]
  · have hmem : r.id ∉ predecessorKeys rs := by
      intro hc
      obtain ⟨r', hr', hid⟩ := List.mem_map.mp hc
      have hrf := List.mem_filter.mp hr'
      have : r' = r := eq_of_mem_of_id_eq hids hrf.1 hr hid
      rw [this] at hrf
      exact ht hrf.2
    simp [Function.comp, hmem, ht]

/-- Along a linked tail every record has a truthy predecessor, so none
of it survives the root filter. -/
theorem linked_tail_filter_pred (t : List TRecord) :
    ∀ (s0 : TRecord), linkedB s0 t = true → (∀ r ∈ s0 :: t, r.id ≠ "") →
      t.filter (fun r => !(truthy r.pred)) = [] := by
  induction t with
  | nil => intro _ _ _; rfl
  | cons b t2 ih =>
    intro s0 hlink hne
    simp only [linkedB, Bool.and_eq_true, beq_iff_eq] at hlink
    obtain ⟨⟨_hsucc, hpred⟩, hlink2⟩ := hlink
    have hid : s0.id ≠ "" := hne s0 (List.mem_cons_self _ _)
    have hb : truthy b.pred = true := by
      rw [hpred]
      simpa [truthy] using hid
    rw [List.filter_cons]
    simp only [hb, Bool.not_true]
    exact ih b hlink2 (fun r hr => hne r (List.mem_cons_of_mem _ hr))

/-- The chain roots of a well-formed forest are exactly the chain
heads, in forest order. -/
theorem oldestIds_forest (F : List (List TRecord))
    (hwf : ∀ c ∈ F, wfChainB c = true)
    (hids : ((F.flatten).map TRecord.id).Nodup) :
    oldestIds F.flatten = F.map headIdD := by
  rw [oldestIds_eq_filter _ hids, List.filter_flatten]
  induction F with
  | nil => rfl
  | cons c F2 ih =>
    have hrec := ih (fun x hx => hwf x (List.mem_cons_of_mem _ hx))
      (by
        rw [List.flatten_cons, List.map_append] at hids
        exact (List.nodup_append.mp hids).2.1)
    cases c with
    | nil =>
      have := hwf [] (List.mem_cons_self _ _)
      simp [wfChainB] at this
    | cons h t =>
      have hwfc := hwf (h :: t) (List.mem_cons_self _ _)
      simp only [wfChainB, Bool.and_eq_true, beq_iff_eq] at hwfc
      obtain ⟨⟨hpred, hall⟩, hlink⟩ := hwfc
      have hne : ∀ r ∈ h :: t, r.id ≠ "" := by
        intro r hr
        have := List.all_eq_true.mp hall r hr
        simpa using this
      have hth : truthy h.pred = false := by rw [hpred]; rfl
      have hfilter : (h :: t).filter (fun r => !(truthy r.pred)) = [h] := by
        rw [List.filter_cons]
        simp only [hth, Bool.not_false, if_pos]
        rw [linked_tail_filter_pred t h hlink hne]
      simp only [List.map_cons, List.flatten_cons, List.map_append,
        hfilter]
      rw [hrec]
      rfl

/-- A linked segment holds no record whose successor is a target
outside its tail. -/
theorem linked_filter_not_target (t : List TRecord) :
    ∀ (s0 : TRecord) (x : String), linkedB s0 t = true →
      x ∉ t.map TRecord.id →
      (s0 :: t).filter (qSucc x) = [] := by
  induction t with
  | nil =>
    intro s0 x hlink _
    have hsucc : s0.succ = none := by simpa [linkedB] using hlink
    simp [List.filter_cons, qSucc, hsucc, truthy]
  | cons b t2 ih =>
    intro s0 x hlink hx
    simp only [linkedB, Bool.and_eq_true, beq_iff_eq] at hlink
    obtain ⟨⟨hsucc, _⟩, hlink2⟩ := hlink
    have hbx : b.id ≠ x := by
      intro hc
      exact hx (List.mem_map.mpr ⟨b, List.mem_cons_self _ _, hc⟩)
    have hq : qSucc x s0 = false := by
      simp [qSucc, hsucc, hbx]
    rw [List.filter_cons]
    simp only [hq]
    exact ih b x hlink2 (fun hc => hx (List.mem_cons_of_mem _ hc))

/-- In a linked segment with distinct non-empty ids, the records whose
successor is a given member a are exactly the record just before a. -/
theorem linked_filter_adjacent :
    ∀ (u : List TRecord) (s0 : TRecord) (t : List TRecord)
      (b a : TRecord) (w : List TRecord),
      linkedB s0 t = true →
      ((s0 :: t).map TRecord.id).Nodup →
      (∀ r ∈ s0 :: t, r.id ≠ "") →
      s0 :: t = u ++ b :: a :: w →
      (s0 :: t).filter (qSucc a.id) = [b] := by
  intro u
  induction u with
  | nil =>
    intro s0 t b a w hlink hnd hne heq
    simp only [List.nil_append] at heq
    injection heq with hb ht
    subst hb
    subst ht
    simp only [linkedB, Bool.and_eq_true, beq_iff_eq] at hlink
    obtain ⟨⟨hsucc, _⟩, hlink2⟩ := hlink
    have haid : a.id ≠ "" := hne a (by simp)
    have hq : qSucc a.id s0 = true := by
      simp [qSucc, hsucc, truthy, haid]
    rw [List.filter_cons]
    simp only [hq, if_pos]
    have hrest : (a :: w).filter (qSucc a.id) = [] := by
      apply linked_filter_not_target w a a.id hlink2
      rw [List.map_cons, List.nodup_cons] at hnd
      have hnd2 := hnd.2
      rw [List.map_cons, List.nodup_cons] at hnd2
      exact hnd2.1
    rw [hrest]
  | cons u0 u2 ih =>
    intro s0 t b a w hlink hnd hne heq
    simp only [List.cons_append] at heq
    injection heq with hs0 ht
    cases t with
    | nil =>
      rcases u2 with _ | ⟨y, u3⟩ <;> simp at ht
    | cons s1 t1 =>
      simp only [linkedB, Bool.and_eq_true, beq_iff_eq] at hlink
      obtain ⟨⟨hsucc, _⟩, hlink2⟩ := hlink
      have hamem : a ∈ t1 := by
        cases u2 with
        | nil =>
          simp only [List.nil_append] at ht
          injection ht with h1 h2
          rw [h2]
          simp
        | cons y u3 =>
          simp only [List.cons_append] at ht
          injection ht with h1 h2
          rw [h2]
          exact List.mem_append_right _ (by simp)
      have hs1a : s1.id ≠ a.id := by
        intro hc
        rw [List.map_cons, List.nodup_cons] at hnd
        have hnd2 := hnd.2
        rw [List.map_cons, List.nodup_cons] at hnd2
        exact hnd2.1 (hc ▸ List.mem_map.mpr ⟨a, hamem, rfl⟩)
      have hq : qSucc a.id s0 = false := by
        simp [qSucc, hsucc, hs1a]
      rw [List.filter_cons]
      simp only [hq]
      exact ih s1 t1 b a w hlink2
        (by rw [List.map_cons, List.nodup_cons] at hnd; exact hnd.2)
        (fun r hr => hne r (List.mem_cons_of_mem _ hr))
        ht

/-- No record of a forest of chains none of which contains the target
id has the target as successor. -/
theorem flatten_filter_not_target (G : List (List TRecord)) (x : String)
    (hwf : ∀ c ∈ G, wfChainB c = true)
    (hx : ∀ c ∈ G, x ∉ c.map TRecord.id) :
    (G.flatten).filter (qSucc x) = [] := by
  induction G with
  | nil => rfl
  | cons c G2 ih =>
    rw [List.flatten_cons, List.filter_append]
    have h2 := ih (fun y hy => hwf y (List.mem_cons_of_mem _ hy))
      (fun y hy => hx y (List.mem_cons_of_mem _ hy))
    rw [h2]
    cases c with
    | nil => rfl
    | cons h t =>
      have hwfc := hwf (h :: t) (List.mem_cons_self _ _)
      simp only [wfChainB, Bool.and_eq_true, beq_iff_eq] at hwfc
      have hxc := hx (h :: t) (List.mem_cons_self _ _)
      rw [linked_filter_not_target t h x hwfc.2
        (fun hc => hxc (List.mem_cons_of_mem _ (by simpa using hc)))]
      rfl

/-- In a well-formed forest, the child filter for a target id of one
chain is decided inside that chain alone. -/
theorem childIds_flatten_eq (F1 F2 : List (List TRecord)) (c : List TRecord)
    (hwf : ∀ x ∈ F1 ++ c :: F2, wfChainB x = true)
    (hids : (((F1 ++ c :: F2).flatten).map TRecord.id).Nodup)
    (x : String) (hx : x ∈ c.map TRecord.id) :
    childIds ((F1 ++ c :: F2).flatten) x
      = (c.filter (qSucc x)).map TRecord.id := by
  have hflat : (F1 ++ c :: F2).flatten
      = F1.flatten ++ (c ++ F2.flatten) := by
    rw [List.flatten_append, List.flatten_cons]
  rw [hflat] at hids ⊢
  rw [List.map_append, List.map_append] at hids
  have hnd1 := List.nodup_append.mp hids
  have hnd2 := List.nodup_append.mp hnd1.2.1
  have hxA : ∀ c'' ∈ F1, x ∉ c''.map TRecord.id := by
    intro c'' hc'' hmem
    obtain ⟨r, hr, hrid⟩ := List.mem_map.mp hmem
    have hxinA : x ∈ (F1.flatten).map TRecord.id :=
      List.mem_map.mpr ⟨r, List.mem_flatten.mpr ⟨c'', hc'', hr⟩, hrid⟩
    exact hnd1.2.2 hxinA (List.mem_append_left _ hx)
  have hxB : ∀ c'' ∈ F2, x ∉ c''.map TRecord.id := by
    intro c'' hc'' hmem
    obtain ⟨r, hr, hrid⟩ := List.mem_map.mp hmem
    have hxinB : x ∈ (F2.flatten).map TRecord.id :=
      List.mem_map.mpr ⟨r, List.mem_flatten.mpr ⟨c'', hc'', hr⟩, hrid⟩
    exact hnd2.2.2 hx hxinB
  unfold childIds
  rw [List.filter_append, List.filter_append]
  rw [flatten_filter_not_target F1 x
    (fun y hy => hwf y (List.mem_append_left _ hy)) hxA]
  rw [flatten_filter_not_target F2 x
    (fun y hy => hwf y (List.mem_append_right _ (List.mem_cons_of_mem _ hy)))
    hxB]
  simp

/-- In a well-formed forest no record names a chain head as successor:
the head node receives no children beyond its chain, and none from it
either. -/
theorem childIds_head_forest (F : List (List TRecord))
    (hwf : ∀ x ∈ F, wfChainB x = true)
    (hids : ((F.flatten).map TRecord.id).Nodup)
    (h : TRecord) (t : List TRecord) (hc : h :: t ∈ F) :
    childIds (F.flatten) h.id = [] := by
  obtain ⟨F1, F2, hF⟩ := List.append_of_mem hc
  subst hF
  rw [childIds_flatten_eq F1 F2 (h :: t) hwf hids h.id (by simp)]
  have hwfc := hwf (h :: t) (List.mem_append_right _ (List.mem_cons_self _ _))
  simp only [wfChainB, Bool.and_eq_true, beq_iff_eq] at hwfc
  have hndc : ((h :: t).map TRecord.id).Nodup := by
    have hsub : List.Sublist (h :: t) ((F1 ++ (h :: t) :: F2).flatten) := by
      rw [List.flatten_append, List.flatten_cons]
      exact List.Sublist.trans (List.sublist_append_left _ _)
        (List.sublist_append_right _ _)
    exact List.Nodup.sublist (List.Sublist.map TRecord.id hsub) hids
  rw [linked_filter_not_target t h h.id hwfc.2
    (by
      rw [List.map_cons, List.nodup_cons] at hndc
      exact hndc.1)]
  rfl

/-- In a well-formed forest the node of a non-head chain record
receives exactly the node of its chain predecessor as child. -/
theorem childIds_adjacent_forest (F : List (List TRecord))
    (hwf : ∀ x ∈ F, wfChainB x = true)
    (hids : ((F.flatten).map TRecord.id).Nodup)
    (h : TRecord) (t : List TRecord) (hc : h :: t ∈ F)
    (u : List TRecord) (b a : TRecord) (w : List TRecord)
    (hdec : h :: t = u ++ b :: a :: w) :
    childIds (F.flatten) a.id = [b.id] := by
  obtain ⟨F1, F2, hF⟩ := List.append_of_mem hc
  subst hF
  have hamem : a ∈ h :: t := by
    rw [hdec]
    exact List.mem_append_right _ (List.mem_cons_of_mem _
      (List.mem_cons_self _ _))
  rw [childIds_flatten_eq F1 F2 (h :: t) hwf hids a.id
    (List.mem_map.mpr ⟨a, hamem, rfl⟩)]
  have hwfc := hwf (h :: t) (List.mem_append_right _ (List.mem_cons_self _ _))
  simp only [wfChainB, Bool.and_eq_true, beq_iff_eq] at hwfc
  have hndc : ((h :: t).map TRecord.id).Nodup := by
    have hsub : List.Sublist (h :: t) ((F1 ++ (h :: t) :: F2).flatten) := by
      rw [List.flatten_append, List.flatten_cons]
      exact List.Sublist.trans (List.sublist_append_left _ _)
        (List.sublist_append_right _ _)
    exact List.Nodup.sublist (List.Sublist.map TRecord.id hsub) hids
  have hne : ∀ r ∈ h :: t, r.id ≠ "" := by
    intro r hr
    have := List.all_eq_true.mp hwfc.1.2 r hr
    simpa using this
  rw [linked_filter_adjacent u h t b a w hwfc.2 hndc hne hdec]
  rfl

/-- Along a chain of a well-formed forest, every record after a given
position has exactly its chain predecessor as child. -/
theorem adjOk_of_chain (F : List (List TRecord))
    (hwf : ∀ x ∈ F, wfChainB x = true)
    (hids : ((F.flatten).map TRecord.id).Nodup)
    (h : TRecord) (t : List TRecord) (hc : h :: t ∈ F) :
    ∀ (t' pre : List TRecord) (x : TRecord),
      h :: t = pre ++ x :: t' → adjOk (F.flatten) x t' := by
  intro t'
  induction t' with
  | nil => intro pre x _; trivial
  | cons y t2 ih =>
    intro pre x hdec
    constructor
    · exact childIds_adjacent_forest F hwf hids h t hc pre x y t2 hdec
    · apply ih (pre ++ [x]) y
      rw [hdec, List.append_assoc]
      rfl

/-- The node of a record without children is a leaf whatever the fuel. -/
theorem buildNode_leaf (rs : List TRecord) (vm : VMap) (i : String)
    (hch : childIds rs i = []) :
    ∀ fuel, buildNode rs vm fuel i = nestedNode vm [i] := by
  intro fuel
  cases fuel with
  | zero => rfl
  | succ n => rw [buildNode, hch]; rfl

/-- Walking up a chain from a record whose subtree is already the
nested chain of the ids below it, the builder produces the nested chain
of the whole suffix. -/
theorem buildNode_chain_up (rs : List TRecord) (vm : VMap) :
    ∀ (t : List TRecord) (b : TRecord) (acc : List String),
      adjOk rs b t →
      (∀ fuel, acc.length ≤ fuel →
        buildNode rs vm fuel b.id = nestedNode vm (b.id :: acc)) →
      ∀ fuel, t.length + acc.length ≤ fuel →
        buildNode rs vm fuel ((b :: t).getLast (List.cons_ne_nil b t)).id
          = nestedNode vm (((b :: t).map TRecord.id).reverse ++ acc) := by
  intro t
  induction t with
  | nil =>
    intro b acc _ hbase fuel hfuel
    simp only [List.getLast_singleton, List.map_cons, List.map_nil,
      List.reverse_cons, List.reverse_nil, List.nil_append,
      List.cons_append, List.nil_append]
    exact hbase fuel (by simpa using hfuel)
  | cons a t2 ih =>
    intro b acc hadj hbase fuel hfuel
    obtain ⟨hchild, hadj2⟩ := hadj
    have hstep : ∀ f, (b.id :: acc).length ≤ f →
        buildNode rs vm f a.id = nestedNode vm (a.id :: b.id :: acc) := by
      intro f hf
      cases f with
      | zero => simp at hf
      | succ n =>
        rw [buildNode, hchild]
        simp only [List.map_cons, List.map_nil]
        rw [hbase n (by simp only [List.length_cons] at hf; omega)]
        rfl
    have hres := ih a (b.id :: acc) hadj2 hstep fuel
      (by simp only [List.length_cons] at hfuel ⊢; omega)
    have hlast : ((b :: a :: t2).getLast (List.cons_ne_nil b (a :: t2))).id
        = ((a :: t2).getLast (List.cons_ne_nil a t2)).id := by
      rw [List.getLast_cons (List.cons_ne_nil a t2)]
    rw [hlast, hres]
    congr 1
    simp [List.reverse_cons, List.append_assoc]

/-- The spine of a nested chain node is its id list. -/
theorem spine_nestedNode (vm : VMap) :
    ∀ (ids : List String), ids ≠ [] → spine (nestedNode vm ids) = ids := by
  intro ids
  induction ids with
  | nil => intro h; cases h rfl
  | cons i t ih =>
    intro _
    cases t with
    | nil => rfl
    | cons j t2 =>
      show i :: spine (nestedNode vm (j :: t2)) = i :: (j :: t2)
      rw [ih (by simp)]

/-- A nested chain node is strictly linear. -/
theorem linear_nestedNode (vm : VMap) :
    ∀ (ids : List String), linearNode (nestedNode vm ids) = true := by
  intro ids
  induction ids with
  | nil => rfl
  | cons i t ih =>
    cases t with
    | nil => rfl
    | cons j t2 =>
      show linearNode (nestedNode vm (j :: t2)) = true
      exact ih

/-- The ids of one chain of a forest with globally distinct ids are
distinct. -/
theorem chain_ids_nodup (F : List (List TRecord)) (c : List TRecord)
    (hc : c ∈ F) (hids : ((F.flatten).map TRecord.id).Nodup) :
    (c.map TRecord.id).Nodup := by
  obtain ⟨F1, F2, hF⟩ := List.append_of_mem hc
  subst hF
  have hsub : List.Sublist c ((F1 ++ c :: F2).flatten) := by
    rw [List.flatten_append, List.flatten_cons]
    exact List.Sublist.trans (List.sublist_append_left _ _)
      (List.sublist_append_right _ _)
  exact List.Nodup.sublist (List.Sublist.map TRecord.id hsub) hids

/-- versionsFrom is stable under the chain writes of id-disjoint
chains. -/
theorem versionsFrom_foldl (c : List TRecord) :
    ∀ (G : List (List TRecord)) (vm : VMap) (v : Nat),
      (∀ c'' ∈ G, ∀ r ∈ c, r.id ∉ c''.map TRecord.id) →
      versionsFrom vm v c →
      versionsFrom (G.foldl chainUpserts vm) v c := by
  intro G
  induction G with
  | nil => intro vm v _ hv; exact hv
  | cons g G2 ih =>
    intro vm v hdisj hv
    rw [List.foldl_cons]
    exact ih (chainUpserts vm g) v
      (fun x hx => hdisj x (List.mem_cons_of_mem _ hx))
      (versionsFrom_preserved c vm (g.map TRecord.id) 1 v
        (hdisj g (List.mem_cons_self _ _)) hv)

/-- Claim C3: on a collection of records forming well-formed provenance
chains (each chain oldest-first with matching pointers, a single root
and a single head, globally distinct non-empty ids), the version-tree
builder completes its forward walk within fuel bounded by the record
count; the resulting version map assigns every chain the consecutive
versions 1, 2, ... in predecessor-to-successor order; and the node
built for each chain head is the strictly linear nested tree of the
chain ids newest-first, whose spine therefore ends at the chain root:
the leaf-most (deepest) node is the oldest record. -/
theorem claim_C3_version_tree (F : List (List TRecord))
    (hwf : ∀ c ∈ F, wfChainB c = true)
    (hids : ((F.flatten).map TRecord.id).Nodup) :
    ∃ vm, buildVersionMap F.flatten (F.flatten).length = .ok vm
      ∧ (∀ c ∈ F, versionsFrom vm 1 c)
      ∧ (∀ c ∈ F, ∀ hne : c ≠ [],
          buildNode F.flatten vm (F.flatten).length ((c.getLast hne).id)
            = nestedNode vm ((c.map TRecord.id).reverse)
          ∧ spine (buildNode F.flatten vm (F.flatten).length
              ((c.getLast hne).id)) = (c.map TRecord.id).reverse
          ∧ linearNode (buildNode F.flatten vm (F.flatten).length
              ((c.getLast hne).id)) = true
          ∧ (spine (buildNode F.flatten vm (F.flatten).length
              ((c.getLast hne).id))).getLast?
              = c.head?.map TRecord.id) := by
  have hrec : ∀ c ∈ F, ∀ r ∈ c, recById F.flatten r.id = some r :=
    fun c hc r hr =>
      recById_of_mem hids (List.mem_flatten.mpr ⟨c, hc, hr⟩)
  have hlen : ∀ c ∈ F, c.length ≤ (F.flatten).length := by
    intro c hc
    obtain ⟨F1, F2, hF⟩ := List.append_of_mem hc
    subst hF
    rw [List.flatten_append, List.flatten_cons]
    simp only [List.length_append]
    omega
  have hbv : buildVersionMap F.flatten (F.flatten).length
      = .ok (F.foldl chainUpserts []) := by
    unfold buildVersionMap
    rw [oldestIds_forest F hwf hids]
    exact foldlM_walk F.flatten (F.flatten).length F [] hwf hrec hlen
  refine ⟨F.foldl chainUpserts [], hbv, ?_, ?_⟩
  · intro c hc
    obtain ⟨F1, F2, hF⟩ := List.append_of_mem hc
    have hndc : (c.map TRecord.id).Nodup := chain_ids_nodup F c hc hids
    rw [hF, List.foldl_append, List.foldl_cons]
    apply versionsFrom_foldl c F2
    · intro c'' hc'' r hr hmem
      rw [hF, List.flatten_append, List.flatten_cons, List.map_append,
        List.map_append] at hids
      have hnd2 := List.nodup_append.mp (List.nodup_append.mp hids).2.1
      obtain ⟨r', hr', hrid⟩ := List.mem_map.mp hmem
      exact hnd2.2.2 (List.mem_map.mpr ⟨r, hr, rfl⟩)
        (List.mem_map.mpr ⟨r', List.mem_flatten.mpr ⟨c'', hc'', hr'⟩, hrid⟩)
    · exact versionsFrom_upsertRun c _ 1 hndc
  · intro c hc hne
    cases c with
    | nil => cases hne rfl
    | cons h t =>
      have hch : childIds F.flatten h.id = [] :=
        childIds_head_forest F hwf hids h t hc
      have hadj : adjOk F.flatten h t :=
        adjOk_of_chain F hwf hids h t hc t [] h rfl
      have hflen : t.length + ([] : List String).length
          ≤ (F.flatten).length := by
        have := hlen (h :: t) hc
        simp only [List.length_cons] at this
        simp only [List.length_nil]
        omega
      have main := buildNode_chain_up F.flatten (F.foldl chainUpserts []) t h
        [] hadj
        (fun fuel _ =>
          buildNode_leaf F.flatten (F.foldl chainUpserts []) h.id hch fuel)
        (F.flatten).length hflen
      rw [List.append_nil] at main
      have hnonnil : ((h :: t).map TRecord.id).reverse ≠ [] := by simp
      refine ⟨main, ?_, ?_, ?_⟩
      · rw [main, spine_nestedNode _ _ hnonnil]
      · rw [main]
        exact linear_nestedNode _ _
      · rw [main, spine_nestedNode _ _ hnonnil]
        simp

/-- Witness for claim C3 at the concrete forest FC3w. -/
theorem claim_C3_version_tree_witness :
    (∀ c ∈ FC3w, wfChainB c = true)
    ∧ ((FC3w.flatten).map TRecord.id).Nodup
    ∧ (∃ vm, buildVersionMap FC3w.flatten (FC3w.flatten).length = .ok vm
        ∧ (∀ c ∈ FC3w, versionsFrom vm 1 c)
        ∧ (∀ c ∈ FC3w, ∀ hne : c ≠ [],
            buildNode FC3w.flatten vm (FC3w.flatten).length
                ((c.getLast hne).id)
              = nestedNode vm ((c.map TRecord.id).reverse)
            ∧ spine (buildNode FC3w.flatten vm (FC3w.flatten).length
                ((c.getLast hne).id)) = (c.map TRecord.id).reverse
            ∧ linearNode (buildNode FC3w.flatten vm (FC3w.flatten).length
                ((c.getLast hne).id)) = true
            ∧ (spine (buildNode FC3w.flatten vm (FC3w.flatten).length
                ((c.getLast hne).id))).getLast?
                = c.head?.map TRecord.id)) :=
  ⟨by decide, by decide, claim_C3_version_tree FC3w (by decide) (by decide)⟩

end VersionTree

end Senlib
